import Mathlib

set_option linter.unnecessarySeqFocus false
set_option linter.unnecessarySimpa false

/-!
# Verification of the tic-tac-toe decision engine

Shallow embedding of the decision engine of the tic-tac-toe repository
(`src/ai.ts` and the result check of `src/game.ts`) together with proofs
of the specified properties.

Modelling conventions:

* A JS board cell `'' | 'X' | 'O'` becomes `Option Player` (`none` = empty).
* A board is a `List Cell`; JS index reads `board[i]` become `List.getD i none`
  (boards of interest all have length 9, so no out-of-range read occurs in any
  theorem below), and JS index writes become `List.set`.
* JS numbers holding minimax scores (which include `-Infinity`/`Infinity`
  sentinels) become the linearly ordered type `Score` (an integer, or one of
  the two infinities); `Math.max`/`Math.min` become `max`/`min` of its order.
* The in-place mutation of the board that `minimax` and `hardMove` perform is
  modelled by explicitly threading the board through the computation and
  returning it, so that the restore-on-return contract is provable.
* Recursion is by an explicit fuel parameter; the canonical entry points pass
  `countEmpty board + 1`, which is exactly the fuel the recursion consumes
  (each recursive call fills one empty cell), so the out-of-fuel branch is
  never reached from the entry points.
* `Math.random()`-driven choices are modelled by passing the drawn index as an
  extra argument `r`: `easyMove board r` reads entry `r` of the empty-cell
  list, `none` out of range (mirroring the JS `undefined` on an empty list).
-/

/-- The two marks, `'X'` and `'O'` (`Player` in `types.ts`). -/
inductive Player : Type
| X : Player
| O : Player
deriving DecidableEq, Repr, Fintype

/-- One board cell: `none` is the empty string sentinel, `some p` a mark. -/
abbrev Cell : Type := Option Player

/-- A board: the 9-element JS array `BoardCell[]`. -/
abbrev Board : Type := List Cell

/-- A JS number holding a minimax score: an integer (`val`) or one of the
`-Infinity` / `Infinity` sentinels. -/
inductive Score : Type
| negInf : Score
| val (z : ℤ) : Score
| posInf : Score
deriving DecidableEq, Repr

/-- The `<=` comparison of JS numbers, restricted to scores. -/
def Score.ble : Score → Score → Bool
| .negInf, _ => true
| .val _, .negInf => false
| .val a, .val b => decide (a ≤ b)
| .val _, .posInf => true
| .posInf, .negInf => false
| .posInf, .val _ => false
| .posInf, .posInf => true

instance : LE Score := ⟨fun a b => Score.ble a b = true⟩

instance : LT Score := ⟨fun a b => ¬ Score.ble b a = true⟩

/-- `a ≤ b` on scores is, definitionally, the boolean comparison. -/
theorem Score.le_def (a b : Score) : a ≤ b ↔ Score.ble a b = true := Iff.rfl

/-- `a < b` on scores is, definitionally, the failure of `b ≤ a`. -/
theorem Score.lt_def (a b : Score) : a < b ↔ ¬ Score.ble b a = true := Iff.rfl

instance Score.decLE : @DecidableRel Score (· ≤ ·) :=
  fun a b => inferInstanceAs (Decidable (Score.ble a b = true))

instance Score.decLT : @DecidableRel Score (· < ·) :=
  fun a b => inferInstanceAs (Decidable (¬ Score.ble b a = true))

/-- `Math.max` on scores. -/
def Score.bmax (a b : Score) : Score := if Score.ble a b then b else a

/-- `Math.min` on scores. -/
def Score.bmin (a b : Score) : Score := if Score.ble a b then a else b

instance : LinearOrder Score where
  le_refl a := by cases a <;> simp [Score.le_def, Score.ble]
  le_trans a b c := by
    cases a <;> cases b <;> cases c <;>
      simp_all [Score.le_def, Score.ble] <;> omega
  le_antisymm a b := by
    cases a <;> cases b <;>
      simp_all [Score.le_def, Score.ble] <;> omega
  le_total a b := by
    cases a <;> cases b <;> simp [Score.le_def, Score.ble] <;> omega
  lt_iff_le_not_le a b := by
    cases a <;> cases b <;>
      simp [Score.le_def, Score.lt_def, Score.ble] <;> omega
  decidableLE := Score.decLE
  decidableLT := Score.decLT
  decidableEq := inferInstance
  min := Score.bmin
  max := Score.bmax
  min_def a b := by
    by_cases h : Score.ble a b = true <;>
      simp [Score.bmin, h, Score.le_def]
  max_def a b := by
    by_cases h : Score.ble a b = true <;>
      simp [Score.bmax, h, Score.le_def]

/-- Finite scores compare like their integers. -/
theorem Score.val_le_val {a b : ℤ} : Score.val a ≤ Score.val b ↔ a ≤ b := by
  simp [Score.le_def, Score.ble]

/-- `-Infinity` is below every score. -/
theorem Score.negInf_le (a : Score) : Score.negInf ≤ a := by
  cases a <;> simp [Score.le_def, Score.ble]

/-- Every score is below `Infinity`. -/
theorem Score.le_posInf (a : Score) : a ≤ Score.posInf := by
  cases a <;> simp [Score.le_def, Score.ble]

/-- The three AI difficulty levels (`Difficulty` in `types.ts`). -/
inductive Difficulty : Type
| easy : Difficulty
| medium : Difficulty
| hard : Difficulty
deriving DecidableEq, Repr

/-- `AIEngine.WIN_PATTERNS`: the eight three-in-a-row index triples,
in source order (rows, columns, diagonals). -/
def WIN_PATTERNS : List (List Nat) :=
  [[0, 1, 2], [3, 4, 5], [6, 7, 8],
   [0, 3, 6], [1, 4, 7], [2, 5, 8],
   [0, 4, 8], [2, 4, 6]]

/-- The loop body of `AIEngine.getWinner`: scan the given patterns in order;
for the first pattern whose cell `a` is non-empty (JS truthy) and equal to
cells `b` and `c`, return that mark. -/
def gwLoop (b : Board) : List (List Nat) → Option Player
| [] => none
| p :: rest =>
  match b.getD (p.getD 0 0) none with
  | some mk =>
    if b.getD (p.getD 1 0) none = some mk ∧ b.getD (p.getD 2 0) none = some mk then
      some mk
    else gwLoop b rest
  | none => gwLoop b rest

/-- `AIEngine.getWinner`: the mark of the first completed line, or `none`. -/
def getWinner (b : Board) : Option Player := gwLoop b WIN_PATTERNS

/-- `AIEngine.getEmptyCells`: indices of empty cells, in ascending order. -/
def getEmptyCells (b : Board) : List Nat :=
  (List.range b.length).filter (fun i => decide (b.getD i none = none))

/-- Number of empty cells; used as canonical fuel for the search. -/
def countEmpty (b : Board) : Nat := (getEmptyCells b).length

/-- `AIEngine.findWinningMove`: if exactly two cells of `pattern` hold `mark`
and exactly one is empty, the index of that empty cell, else `none`. -/
def findWinningMove (b : Board) (pattern : List Nat) (mark : Player) : Option Nat :=
  let values := pattern.map (fun i => b.getD i none)
  let markCount := (values.filter (fun v => decide (v = some mark))).length
  let emptyCount := (values.filter (fun v => decide (v = none))).length
  if markCount = 2 ∧ emptyCount = 1 then
    some (pattern.getD (values.indexOf none) 0)
  else none

/-- The maximizing `for` loop of `minimax`: try each index of `rest` in order,
skip non-empty cells, place the mark `mk`, score the position with `rec`
(the recursive `minimax` call, with the board mutation threaded through),
undo the placement, track the running maximum in `best` and in `alpha`, and
stop early once `beta ≤ alpha`. -/
def maxLoop (rec : Board → Score → Score → Score × Board) (mk : Player) :
    List Nat → Board → Score → Score → Score → Score × Board
| [], b, _, _, best => (best, b)
| i :: rest, b, alpha, beta, best =>
  if b.getD i none = none then
    let res := rec (b.set i (some mk)) alpha beta
    let b2 := res.2.set i none
    let best1 := max best res.1
    let alpha1 := max alpha res.1
    if beta ≤ alpha1 then (best1, b2)
    else maxLoop rec mk rest b2 alpha1 beta best1
  else maxLoop rec mk rest b alpha beta best

/-- The minimizing `for` loop of `minimax`: symmetric to `maxLoop` with the
running minimum, the `beta` update and the same cutoff test. -/
def minLoop (rec : Board → Score → Score → Score × Board) (mk : Player) :
    List Nat → Board → Score → Score → Score → Score × Board
| [], b, _, _, best => (best, b)
| i :: rest, b, alpha, beta, best =>
  if b.getD i none = none then
    let res := rec (b.set i (some mk)) alpha beta
    let b2 := res.2.set i none
    let best1 := min best res.1
    let beta1 := min beta res.1
    if beta1 ≤ alpha then (best1, b2)
    else minLoop rec mk rest b2 alpha beta1 best1
  else minLoop rec mk rest b alpha beta best

/-- `AIEngine.minimax`, fueled and with the in-place board mutation made
explicit: the returned board is the state of the mutated array at return
time.  The canonical entry point `minimax` passes fuel `countEmpty b + 1`,
which the recursion never exhausts. -/
def minimaxF : Nat → Board → Nat → Bool → Score → Score → Player → Player → Score × Board
| 0, b, _, _, _, _, _, _ => (Score.val 0, b)
| fuel + 1, b, depth, isMaximizing, alpha, beta, ai, human =>
  let winner := getWinner b
  if winner = some ai then (Score.val (10 - (depth : ℤ)), b)
  else if winner = some human then (Score.val ((depth : ℤ) - 10), b)
  else if ¬ none ∈ b then (Score.val 0, b)
  else if isMaximizing then
    maxLoop (fun b1 a1 b2 => minimaxF fuel b1 (depth + 1) false a1 b2 ai human) ai
      (List.range 9) b alpha beta Score.negInf
  else
    minLoop (fun b1 a1 b2 => minimaxF fuel b1 (depth + 1) true a1 b2 ai human) human
      (List.range 9) b alpha beta Score.posInf

/-- `AIEngine.minimax` at its canonical fuel. -/
def minimax (b : Board) (depth : Nat) (isMaximizing : Bool)
    (alpha beta : Score) (ai human : Player) : Score × Board :=
  minimaxF (countEmpty b + 1) b depth isMaximizing alpha beta ai human

/-- `AIEngine.easyMove`: `empty[Math.floor(Math.random() * empty.length)]`,
with the random draw `r` (the floored index) passed explicitly; reading past
the end of the list gives `none`, as the JS read gives `undefined`. -/
def easyMove (b : Board) (r : Nat) : Option Nat :=
  (getEmptyCells b).get? r

/-- One priority pass of `AIEngine.mediumMove`: return the first winning move
for `mark` over the given patterns, in order. -/
def firstWinLoop (b : Board) (mark : Player) : List (List Nat) → Option Nat
| [] => none
| p :: rest =>
  match findWinningMove b p mark with
  | some m => some m
  | none => firstWinLoop b mark rest

/-- `AIEngine.mediumMove`: win now if possible, else block the opponent's
immediate win, else fall back to the easy (random) strategy. -/
def mediumMove (b : Board) (ai human : Player) (r : Nat) : Option Nat :=
  match firstWinLoop b ai WIN_PATTERNS with
  | some m => some m
  | none =>
    match firstWinLoop b human WIN_PATTERNS with
    | some m => some m
    | none => easyMove b r

/-- The `for (const idx of empty)` loop of `AIEngine.hardMove`: probe each
candidate index (place the AI mark, score with a fresh full-window minimax,
undo) and keep the first index whose score strictly improves on the running
best; the threaded board is returned alongside the chosen move. -/
def hmLoop (ai human : Player) :
    List Nat → Board → Score → Option Nat → Option Nat × Board
| [], b, _, bestMove => (bestMove, b)
| idx :: rest, b, bestScore, bestMove =>
  let res := minimax (b.set idx (some ai)) 0 false Score.negInf Score.posInf ai human
  let b2 := res.2.set idx none
  if bestScore < res.1 then hmLoop ai human rest b2 res.1 (some idx)
  else hmLoop ai human rest b2 bestScore bestMove

/-- `AIEngine.hardMove`, with the in-place board mutation made explicit in
the second component of the result. -/
def hardMove (b : Board) (ai human : Player) : Option Nat × Board :=
  hmLoop ai human (getEmptyCells b) b Score.negInf none

/-- `AIEngine.chooseMove`: dispatch on difficulty.  The random draw `r` is
only consulted by the easy strategy and the medium fallback. -/
def chooseMove (b : Board) (difficulty : Difficulty) (aiMark playerMark : Player)
    (r : Nat) : Option Nat :=
  match difficulty with
  | .easy => easyMove b r
  | .medium => mediumMove b aiMark playerMark r
  | .hard => (hardMove b aiMark playerMark).1

/-- A decided game outcome (`WinResult | DrawResult` in `game.ts`):
a win carries the winning mark and the completed pattern. -/
inductive GameResult : Type
| win (winner : Player) (pattern : List Nat) : GameResult
| draw : GameResult
deriving DecidableEq, Repr

/-- The pattern scan of `GameController.checkResult`: the first pattern whose
three cells are non-empty (JS truthy) and equal yields a win result. -/
def crLoop (b : Board) : List (List Nat) → Option GameResult
| [] => none
| p :: rest =>
  match b.getD (p.getD 0 0) none with
  | some mk =>
    if b.getD (p.getD 1 0) none = some mk ∧ b.getD (p.getD 2 0) none = some mk then
      some (GameResult.win mk p)
    else crLoop b rest
  | none => crLoop b rest

/-- `GameController.checkResult`: first completed line wins; otherwise a full
board is a draw; otherwise the game is in progress (`none`). -/
def checkResult (b : Board) : Option GameResult :=
  match crLoop b WIN_PATTERNS with
  | some res => some res
  | none => if ¬ none ∈ b then some GameResult.draw else none

/-- Adversarial simulation of a full game against the hard strategy.
`aiToMove` says whose turn it is.  The check succeeds iff the human mark has
no completed line at the current board and, unless the game is over (either
mark has a line, or the board is full), the game continues safely: on the
AI's turn the hard-strategy `chooseMove` yields a legal cell and play goes on
safely from the resulting board; on the human's turn every legal human move
leads to a board from which play goes on safely.  Running out of fuel counts
as failure, so a `true` verdict certifies the whole game tree was explored. -/
def noHumanWin : Nat → Bool → Board → Player → Player → Bool
| 0, _, _, _, _ => false
| fuel + 1, aiToMove, b, ai, human =>
  if getWinner b = some human then false
  else if getWinner b = some ai then true
  else if ¬ none ∈ b then true
  else if aiToMove then
    match chooseMove b Difficulty.hard ai human 0 with
    | none => false
    | some m =>
      if b.getD m none = none then noHumanWin fuel false (b.set m (some ai)) ai human
      else false
  else
    ((List.range 9).filter (fun i => decide (b.getD i none = none))).all
      (fun i => noHumanWin fuel true (b.set i (some human)) ai human)

/-- The empty 9-cell board. -/
def emptyBoard : Board :=
  [none, none, none, none, none, none, none, none, none]

/-! ## Reference search without pruning

`minimaxNPF` is the specification-side search: the identical recursion with
the alpha-beta cutoff removed (and hence no `alpha`/`beta` arguments and no
board mutation at all).  The pruning-soundness theorem relates `minimaxF` to
it. -/

/-- The maximizing loop of the unpruned search: fold the running maximum
over the scores of all empty cells of `rest`. -/
def npMaxLoop (rec : Board → Score) (mk : Player) : List Nat → Board → Score → Score
| [], _, best => best
| i :: rest, b, best =>
  if b.getD i none = none then
    npMaxLoop rec mk rest b (max best (rec (b.set i (some mk))))
  else npMaxLoop rec mk rest b best

/-- The minimizing loop of the unpruned search. -/
def npMinLoop (rec : Board → Score) (mk : Player) : List Nat → Board → Score → Score
| [], _, best => best
| i :: rest, b, best =>
  if b.getD i none = none then
    npMinLoop rec mk rest b (min best (rec (b.set i (some mk))))
  else npMinLoop rec mk rest b best

/-- The unpruned minimax search: same terminal scoring and same move
enumeration as `minimaxF`, but every candidate cell is explored. -/
def minimaxNPF : Nat → Board → Nat → Bool → Player → Player → Score
| 0, _, _, _, _, _ => Score.val 0
| fuel + 1, b, depth, isMaximizing, ai, human =>
  let winner := getWinner b
  if winner = some ai then Score.val (10 - (depth : ℤ))
  else if winner = some human then Score.val ((depth : ℤ) - 10)
  else if ¬ none ∈ b then Score.val 0
  else if isMaximizing then
    npMaxLoop (fun b1 => minimaxNPF fuel b1 (depth + 1) false ai human) ai
      (List.range 9) b Score.negInf
  else
    npMinLoop (fun b1 => minimaxNPF fuel b1 (depth + 1) true ai human) human
      (List.range 9) b Score.posInf

/-- The unpruned search at its canonical fuel. -/
def minimaxNP (b : Board) (depth : Nat) (isMaximizing : Bool) (ai human : Player) : Score :=
  minimaxNPF (countEmpty b + 1) b depth isMaximizing ai human

/-! ## Auxiliary notions for the stated properties -/

/-- Negation of a JS number holding a score. -/
def Score.neg : Score → Score
| .negInf => .posInf
| .val z => .val (-z)
| .posInf => .negInf

/-- Exchange the two marks. -/
def swapP : Player → Player
| .X => .O
| .O => .X

/-- Exchange the two marks everywhere on a board. -/
def swapB (b : Board) : Board := b.map (fun c => c.map swapP)

/-- Specification-side reading of one line for `checkResult`: the mark
occupying all three cells of `p`, if the three cells are non-empty and
equal. -/
def lineFilled (b : Board) (p : List Nat) : Option Player :=
  match b.getD (p.getD 0 0) none, b.getD (p.getD 1 0) none, b.getD (p.getD 2 0) none with
  | some x, some y, some z => if x = y ∧ x = z then some x else none
  | _, _, _ => none

/-- Specification-side result check: the win on the first filled line in
`WIN_PATTERNS` order, else a draw when no cell is empty, else nothing. -/
def specCheckResult (b : Board) : Option GameResult :=
  match WIN_PATTERNS.findSome? (fun p => (lineFilled b p).map (fun mk => GameResult.win mk p)) with
  | some r => some r
  | none => if none ∈ b then none else some GameResult.draw

/-! ## A certificate checker for the opening position

Evaluating the search itself on the empty board is far too slow for the
kernel, so the value bound needed for the unbeatability property is
established by a dedicated checker: it explores every move of the human
side but only needs one adequate move per AI turn, trying the suggestion
of a rule-based strategy first and falling back to every legal cell.  The
boards are packed into a record of nine cells for fast access.  Soundness
(`lbCheck_sound`) turns a `true` verdict into a bound on `minimaxNPF`; the
strategy only steers the search and is never trusted. -/

/-- A 9-cell board held in a record, for fast cell access. -/
structure QBoard : Type where
  c0 : Cell
  c1 : Cell
  c2 : Cell
  c3 : Cell
  c4 : Cell
  c5 : Cell
  c6 : Cell
  c7 : Cell
  c8 : Cell
deriving DecidableEq, Repr

/-- Cell read on the record board. -/
def qGet (q : QBoard) : Nat → Cell
| 0 => q.c0
| 1 => q.c1
| 2 => q.c2
| 3 => q.c3
| 4 => q.c4
| 5 => q.c5
| 6 => q.c6
| 7 => q.c7
| 8 => q.c8
| _ => none

/-- Cell write on the record board (identity out of range, as `List.set`). -/
def qSet (q : QBoard) : Nat → Cell → QBoard
| 0, x => { q with c0 := x }
| 1, x => { q with c1 := x }
| 2, x => { q with c2 := x }
| 3, x => { q with c3 := x }
| 4, x => { q with c4 := x }
| 5, x => { q with c5 := x }
| 6, x => { q with c6 := x }
| 7, x => { q with c7 := x }
| 8, x => { q with c8 := x }
| _, _ => q

/-- One line test of the winner scan, with the three cells in hand. -/
def qLine (x y z : Cell) : Option Player :=
  match x with
  | some mk => if y = some mk ∧ z = some mk then some mk else none
  | none => none

/-- Winner scan on the record board, lines in `WIN_PATTERNS` order. -/
def qWinner (q : QBoard) : Option Player :=
  match qLine q.c0 q.c1 q.c2 with
  | some mk => some mk
  | none =>
  match qLine q.c3 q.c4 q.c5 with
  | some mk => some mk
  | none =>
  match qLine q.c6 q.c7 q.c8 with
  | some mk => some mk
  | none =>
  match qLine q.c0 q.c3 q.c6 with
  | some mk => some mk
  | none =>
  match qLine q.c1 q.c4 q.c7 with
  | some mk => some mk
  | none =>
  match qLine q.c2 q.c5 q.c8 with
  | some mk => some mk
  | none =>
  match qLine q.c0 q.c4 q.c8 with
  | some mk => some mk
  | none => qLine q.c2 q.c4 q.c6

/-- Does the record board have an empty cell? -/
def qHasEmpty (q : QBoard) : Bool :=
  decide (q.c0 = none) || decide (q.c1 = none) || decide (q.c2 = none) ||
  decide (q.c3 = none) || decide (q.c4 = none) || decide (q.c5 = none) ||
  decide (q.c6 = none) || decide (q.c7 = none) || decide (q.c8 = none)

/-- One line of a winning-move scan with the three cells and their board
indices in hand: the completing index when exactly two cells hold `mk` and
the third is empty. -/
def qLineWin (x y z : Cell) (mk : Player) (ia ib ic : Nat) : Option Nat :=
  if x = some mk ∧ y = some mk ∧ z = none then some ic
  else if x = some mk ∧ z = some mk ∧ y = none then some ib
  else if y = some mk ∧ z = some mk ∧ x = none then some ia
  else none

/-- All completing cells for `mk` on the record board, one entry per
one-move-from-complete line, in `WIN_PATTERNS` order (possibly with
duplicated cells when two lines complete at the same cell). -/
def qWinMoves (q : QBoard) (mk : Player) : List Nat :=
  (qLineWin q.c0 q.c1 q.c2 mk 0 1 2).toList ++
  (qLineWin q.c3 q.c4 q.c5 mk 3 4 5).toList ++
  (qLineWin q.c6 q.c7 q.c8 mk 6 7 8).toList ++
  (qLineWin q.c0 q.c3 q.c6 mk 0 3 6).toList ++
  (qLineWin q.c1 q.c4 q.c7 mk 1 4 7).toList ++
  (qLineWin q.c2 q.c5 q.c8 mk 2 5 8).toList ++
  (qLineWin q.c0 q.c4 q.c8 mk 0 4 8).toList ++
  (qLineWin q.c2 q.c4 q.c6 mk 2 4 6).toList

/-- First completing cell for `mk`, if any. -/
def qFindWin (q : QBoard) (mk : Player) : Option Nat := (qWinMoves q mk).head?

/-- Does `mk` threaten wins on two distinct cells? -/
def qHasFork (q : QBoard) (mk : Player) : Bool :=
  let ws := qWinMoves q mk
  ws.any (fun c => ws.any (fun c2 => decide (c ≠ c2)))

/-- The empty cells where placing `mk` yields a double threat. -/
def qForkCells (q : QBoard) (mk : Player) : List Nat :=
  (List.range 9).filter (fun i =>
    decide (qGet q i = none) && qHasFork (qSet q i (some mk)) mk)

/-- A rule-based drawing strategy for the player `g` against `o`: win,
block, take a fork, defuse the opponent's forks (by a direct block when
there is only one fork cell, else by a threatening side cell that forces a
reply), take the center, the corner opposite an opponent corner, any corner,
any edge.  Returns 9 (an illegal index) when nothing applies.  Its adequacy
is not assumed anywhere: the bound checkers below validate every position it
produces. -/
def qStrat (q : QBoard) (g o : Player) : Nat :=
  match qFindWin q g with
  | some m => m
  | none =>
  match qFindWin q o with
  | some m => m
  | none =>
  match (qForkCells q g).head? with
  | some m => m
  | none =>
  match qForkCells q o with
  | [] =>
    if q.c4 = none then 4
    else
      match [(0, 8), (2, 6), (6, 2), (8, 0)].findSome?
        (fun p => if qGet q p.1 = some o ∧ qGet q p.2 = none then some p.2 else none) with
      | some m => m
      | none =>
        match [0, 2, 6, 8].findSome? (fun i => if qGet q i = none then some i else none) with
        | some m => m
        | none =>
          match [1, 3, 5, 7].findSome? (fun i => if qGet q i = none then some i else none) with
          | some m => m
          | none => 9
  | [c] => c
  | _ :: _ :: _ =>
    match (List.range 9).findSome? (fun e =>
      if qGet q e = none then
        let q1 := qSet q e (some g)
        let ws := qWinMoves q1 g
        if ws = [] then none
        else if qHasFork q1 g then some e
        else
          match ws.head? with
          | some c =>
            let q2 := qSet q1 c (some o)
            if qForkCells q2 o = [] ∧ ¬ qHasFork q2 o then some e else none
          | none => none
      else none) with
    | some m => m
    | none => 9

/-- Certificate checker for a lower bound: explores every move of `hu` (the
minimizer) and, on the turns of `ai`, looks for one move that keeps the
bound, trying the `qStrat` suggestion first and falling back to every legal
cell; it succeeds only if no explored position is a `hu` win.  Soundness
(`lbCheck_sound`) turns a `true` verdict into `0 ≤ minimaxNPF …`. -/
def lbCheck (ai hu : Player) : Nat → Bool → QBoard → Bool
| 0, _, _ => false
| fuel + 1, isMax, q =>
  match qWinner q with
  | some w => decide (w = ai)
  | none =>
    if qHasEmpty q then
      if isMax then
        (qStrat q ai hu :: List.range 9).any (fun i =>
          decide (i < 9) && decide (qGet q i = none) &&
            lbCheck ai hu fuel false (qSet q i (some ai)))
      else
        (List.range 9).all (fun i =>
          if qGet q i = none then lbCheck ai hu fuel true (qSet q i (some hu)) else true)
    else true

/-- Pack a list board into a record board. -/
def encQ (b : Board) : QBoard :=
  ⟨b.getD 0 none, b.getD 1 none, b.getD 2 none, b.getD 3 none, b.getD 4 none,
   b.getD 5 none, b.getD 6 none, b.getD 7 none, b.getD 8 none⟩

/-! ## Concrete boards used in examples and witnesses -/

open Player in
/-- The board `"XXX OO   "`. -/
def demoWinX : Board :=
  [some X, some X, some X, some O, some O, none, none, none, none]

open Player in
/-- The full drawn board `"XOXXOOOXX"`. -/
def demoDrawB : Board :=
  [some X, some O, some X, some X, some O, some O, some O, some X, some X]

/-! # Theorems

## Groundwork on boards -/

/-- Writing the empty value into a cell already read as empty changes
nothing (also covers out-of-range writes, which `List.set` ignores). -/
theorem set_none_of_getD_none : ∀ (b : Board) (i : Nat), b.getD i none = none →
    b.set i none = b
| [], _, _ => rfl
| _ :: _, 0, h => by simp_all [List.getD]
| c :: t, i + 1, h => by
  simp only [List.set]
  rw [set_none_of_getD_none t i (by simpa [List.getD] using h)]

/-- Cells of a full board never read as empty, in range. -/
theorem getD_ne_none_of_full : ∀ (b : Board) (i : Nat), ¬ none ∈ b → i < b.length →
    b.getD i none ≠ none
| c :: t, 0, hf, _ => by
  simp only [List.getD, List.get?, Option.getD_some]
  intro h
  exact hf (by simp [h])
| c :: t, i + 1, hf, hl => by
  simpa [List.getD] using
    getD_ne_none_of_full t i (fun h => hf (List.mem_cons_of_mem _ h)) (by simpa using hl)

/-- Membership in `getEmptyCells`. -/
theorem mem_getEmptyCells {b : Board} {i : Nat} :
    i ∈ getEmptyCells b ↔ i < b.length ∧ b.getD i none = none := by
  simp [getEmptyCells, List.mem_filter, List.mem_range]

/-- A full board has no empty cells. -/
theorem getEmptyCells_eq_nil {b : Board} (hf : ¬ none ∈ b) : getEmptyCells b = [] := by
  rw [List.eq_nil_iff_forall_not_mem]
  intro i hi
  rcases mem_getEmptyCells.1 hi with ⟨hl, hd⟩
  exact getD_ne_none_of_full b i hf hl hd

/-! ## Board restoration (the undo contract) -/

/-- The maximizing loop hands back the board it was given, provided the
recursive call does. -/
theorem maxLoop_board (rec : Board → Score → Score → Score × Board) (mk : Player)
    (hrec : ∀ b α β, (rec b α β).2 = b) :
    ∀ (rest : List Nat) (b : Board) (α β best : Score),
      (maxLoop rec mk rest b α β best).2 = b := by
  intro rest
  induction rest with
  | nil => intro b α β best; rfl
  | cons i rest ih =>
    intro b α β best
    simp only [maxLoop]
    by_cases h : b.getD i none = none
    · rw [if_pos h]
      have hb2 : ((rec (b.set i (some mk)) α β).2.set i none) = b := by
        rw [hrec, List.set_set, set_none_of_getD_none b i h]
      by_cases hc : β ≤ max α (rec (b.set i (some mk)) α β).1
      · simpa [hc] using hb2
      · simpa [hc, hb2] using ih _ _ _ _
    · rw [if_neg h]; exact ih _ _ _ _

/-- The minimizing loop hands back the board it was given, provided the
recursive call does. -/
theorem minLoop_board (rec : Board → Score → Score → Score × Board) (mk : Player)
    (hrec : ∀ b α β, (rec b α β).2 = b) :
    ∀ (rest : List Nat) (b : Board) (α β best : Score),
      (minLoop rec mk rest b α β best).2 = b := by
  intro rest
  induction rest with
  | nil => intro b α β best; rfl
  | cons i rest ih =>
    intro b α β best
    simp only [minLoop]
    by_cases h : b.getD i none = none
    · rw [if_pos h]
      have hb2 : ((rec (b.set i (some mk)) α β).2.set i none) = b := by
        rw [hrec, List.set_set, set_none_of_getD_none b i h]
      by_cases hc : min β (rec (b.set i (some mk)) α β).1 ≤ α
      · simpa [hc] using hb2
      · simpa [hc, hb2] using ih _ _ _ _
    · rw [if_neg h]; exact ih _ _ _ _

/-- `minimaxF` returns the board unchanged, at every fuel. -/
theorem minimaxF_board : ∀ (fuel : Nat) (b : Board) (d : Nat) (m : Bool) (α β : Score)
    (ai hu : Player), (minimaxF fuel b d m α β ai hu).2 = b := by
  intro fuel
  induction fuel with
  | zero => intro b d m α β ai hu; rfl
  | succ fuel ih =>
    intro b d m α β ai hu
    simp only [minimaxF]
    split
    · rfl
    · split
      · rfl
      · split
        · rfl
        · split
          · exact maxLoop_board _ _ (fun b' α' β' => ih b' _ _ α' β' _ _) _ _ _ _ _
          · exact minLoop_board _ _ (fun b' α' β' => ih b' _ _ α' β' _ _) _ _ _ _ _

/-- The probe loop of `hardMove` hands back the board it was given when all
probed cells are empty. -/
theorem hmLoop_board (ai hu : Player) :
    ∀ (rest : List Nat) (b : Board) (bs : Score) (bm : Option Nat),
      (∀ i ∈ rest, b.getD i none = none) → (hmLoop ai hu rest b bs bm).2 = b := by
  intro rest
  induction rest with
  | nil => intro b bs bm _; rfl
  | cons i rest ih =>
    intro b bs bm hall
    have hb2 : ((minimax (b.set i (some ai)) 0 false Score.negInf Score.posInf ai hu).2.set i none) = b := by
      rw [show (minimax (b.set i (some ai)) 0 false Score.negInf Score.posInf ai hu).2
            = b.set i (some ai) from minimaxF_board _ _ _ _ _ _ _ _,
        List.set_set, set_none_of_getD_none b i (hall i (List.mem_cons_self i rest))]
    have hrest : ∀ j ∈ rest, b.getD j none = none :=
      fun j hj => hall j (List.mem_cons_of_mem _ hj)
    simp only [hmLoop]
    split
    · simpa [hb2] using ih _ _ _ (by simpa [hb2] using hrest)
    · simpa [hb2] using ih _ _ _ (by simpa [hb2] using hrest)

/-- C3. Every engine call that temporarily writes to the board leaves it
unchanged on return: `minimax` (at canonical fuel and at every fuel, so in
particular on returns reached through a pruning break) and `hardMove` both
return the board in its entry state. -/
theorem engine_preserves_board :
    (∀ (b : Board) (d : Nat) (m : Bool) (α β : Score) (ai hu : Player),
      (minimax b d m α β ai hu).2 = b) ∧
    (∀ (fuel : Nat) (b : Board) (d : Nat) (m : Bool) (α β : Score) (ai hu : Player),
      (minimaxF fuel b d m α β ai hu).2 = b) ∧
    (∀ (b : Board) (ai hu : Player), (hardMove b ai hu).2 = b) := by
  refine ⟨fun b d m α β ai hu => minimaxF_board _ _ _ _ _ _ _ _,
    minimaxF_board,
    fun b ai hu => hmLoop_board ai hu _ _ _ _ ?_⟩
  intro i hi
  exact (mem_getEmptyCells.1 hi).2

/-! ## C4: terminal evaluation of minimax -/

/-- Unfolding `minimax` once (the canonical fuel is positive, so the first
step of the recursion is always available). -/
theorem minimax_unfold (b : Board) (d : Nat) (m : Bool) (α β : Score) (ai hu : Player) :
    minimax b d m α β ai hu =
      (let winner := getWinner b
       if winner = some ai then (Score.val (10 - (d : ℤ)), b)
       else if winner = some hu then (Score.val ((d : ℤ) - 10), b)
       else if ¬ none ∈ b then (Score.val 0, b)
       else if m then
         maxLoop (fun b1 a1 b2 => minimaxF (countEmpty b) b1 (d + 1) false a1 b2 ai hu) ai
           (List.range 9) b α β Score.negInf
       else
         minLoop (fun b1 a1 b2 => minimaxF (countEmpty b) b1 (d + 1) true a1 b2 ai hu) hu
           (List.range 9) b α β Score.posInf) := by
  rfl

/-- C4. Terminal evaluation: when the AI mark has a completed line `minimax`
returns `10 − depth`; otherwise when the human mark has a completed line it
returns `depth − 10`; otherwise on a full board it returns `0`.  At depth 0
these are, respectively, a positive score, a negative score, and zero. -/
theorem minimax_terminal_eval (b : Board) (d : Nat) (m : Bool) (α β : Score)
    (ai hu : Player) (hne : ai ≠ hu) :
    (getWinner b = some ai → (minimax b d m α β ai hu).1 = Score.val (10 - (d : ℤ))) ∧
    (getWinner b = some hu → (minimax b d m α β ai hu).1 = Score.val ((d : ℤ) - 10)) ∧
    (getWinner b = none → ¬ none ∈ b → (minimax b d m α β ai hu).1 = Score.val 0) ∧
    (getWinner b = some ai → Score.val 0 < (minimax b 0 m α β ai hu).1) ∧
    (getWinner b = some hu → (minimax b 0 m α β ai hu).1 < Score.val 0) ∧
    (getWinner b = none → ¬ none ∈ b → (minimax b 0 m α β ai hu).1 = Score.val 0) := by
  have key : ∀ (d' : Nat),
      (getWinner b = some ai → (minimax b d' m α β ai hu).1 = Score.val (10 - (d' : ℤ))) ∧
      (getWinner b = some hu → (minimax b d' m α β ai hu).1 = Score.val ((d' : ℤ) - 10)) ∧
      (getWinner b = none → ¬ none ∈ b → (minimax b d' m α β ai hu).1 = Score.val 0) := by
    intro d'
    refine ⟨fun hw => ?_, fun hw => ?_, fun hw hf => ?_⟩
    · rw [minimax_unfold]; simp [hw]
    · rw [minimax_unfold]; simp [hw, Ne.symm hne]
    · rw [minimax_unfold]; simp [hw, hf]
  refine ⟨(key d).1, (key d).2.1, (key d).2.2, fun hw => ?_, fun hw => ?_, (key 0).2.2⟩
  · rw [(key 0).1 hw]
    simp [Score.lt_def, Score.ble]
  · rw [(key 0).2.1 hw]
    simp [Score.lt_def, Score.ble]

/-- Witness for `minimax_terminal_eval` at a concrete won board. -/
theorem minimax_terminal_eval_witness :
    (minimax demoWinX 3 true Score.negInf Score.posInf Player.X Player.O).1 =
      Score.val 7 := by
  have h := minimax_terminal_eval demoWinX 3 true Score.negInf Score.posInf
    Player.X Player.O (by decide)
  simpa using h.1 (by decide)

/-! ## C9: full-board behaviour of every strategy -/

/-- On a full board `findWinningMove` finds nothing: no line has an empty
cell. -/
theorem findWinningMove_none_of_full {b : Board} (hb : b.length = 9)
    (hf : ¬ none ∈ b) {p : List Nat} (hp : p ∈ WIN_PATTERNS) (mk : Player) :
    findWinningMove b p mk = none := by
  have hlt : ∀ q ∈ WIN_PATTERNS, ∀ i ∈ q, i < 9 := by decide
  have hvals : ∀ v ∈ p.map (fun i => b.getD i none), ¬ v = none := by
    intro v hv
    rcases List.mem_map.1 hv with ⟨i, hip, rfl⟩
    exact getD_ne_none_of_full b i hf (hb ▸ hlt p hp i hip)
  have hempty : ((p.map (fun i => b.getD i none)).filter (fun v => decide (v = none))) = [] := by
    simp only [List.filter_eq_nil]
    intro v hv
    simpa using hvals v hv
  simp only [findWinningMove]
  rw [hempty]
  simp

/-- The scan of all lines finds nothing when each line yields nothing. -/
theorem firstWinLoop_eq_none {b : Board} {mk : Player} :
    ∀ {ps : List (List Nat)}, (∀ p ∈ ps, findWinningMove b p mk = none) →
      firstWinLoop b mk ps = none
| [], _ => rfl
| p :: ps, h => by
  have h0 := h p (List.mem_cons_self p ps)
  simp only [firstWinLoop, h0]
  exact firstWinLoop_eq_none (fun q hq => h q (List.mem_cons_of_mem _ hq))

/-- C9. On a full 9-cell board, every difficulty of `chooseMove` returns an
absent value (and, being a total function, cannot raise). -/
theorem chooseMove_full_board (b : Board) (ai hu : Player) (r : Nat)
    (hb : b.length = 9) (hf : ¬ none ∈ b) :
    chooseMove b Difficulty.easy ai hu r = none ∧
    chooseMove b Difficulty.medium ai hu r = none ∧
    chooseMove b Difficulty.hard ai hu r = none := by
  have hempty := getEmptyCells_eq_nil hf
  have heasy : easyMove b r = none := by
    simp [easyMove, hempty]
  refine ⟨heasy, ?_, ?_⟩
  · have h1 : firstWinLoop b ai WIN_PATTERNS = none :=
      firstWinLoop_eq_none (fun p hp => findWinningMove_none_of_full hb hf hp ai)
    have h2 : firstWinLoop b hu WIN_PATTERNS = none :=
      firstWinLoop_eq_none (fun p hp => findWinningMove_none_of_full hb hf hp hu)
    simp [chooseMove, mediumMove, h1, h2, heasy]
  · simp [chooseMove, hardMove, hempty, hmLoop]

/-- Witness for `chooseMove_full_board` on the drawn demo board. -/
theorem chooseMove_full_board_witness :
    chooseMove demoDrawB Difficulty.easy Player.X Player.O 5 = none ∧
    chooseMove demoDrawB Difficulty.medium Player.X Player.O 5 = none ∧
    chooseMove demoDrawB Difficulty.hard Player.X Player.O 5 = none :=
  chooseMove_full_board demoDrawB Player.X Player.O 5 (by decide) (by decide)

/-! ## C6: the medium strategy priority chain -/

/-- The pattern loop of `mediumMove` is the first hit of `findWinningMove`
over the scanned patterns. -/
theorem firstWinLoop_eq_findSome? (b : Board) (mk : Player) :
    ∀ ps : List (List Nat),
      firstWinLoop b mk ps = ps.findSome? (fun p => findWinningMove b p mk)
| [] => rfl
| p :: ps => by
  simp only [firstWinLoop, List.findSome?_cons]
  cases findWinningMove b p mk with
  | none => exact firstWinLoop_eq_findSome? b mk ps
  | some m => rfl

/-- C6. `mediumMove` returns the first immediate winning move for the AI over
the 8 lines in `WIN_PATTERNS` order; failing that, the first blocking move
against the human; failing that, the easy strategy's random choice among the
empty cells.  A win always pre-empts a block, which always pre-empts random
play. -/
theorem mediumMove_priority (b : Board) (ai hu : Player) (r : Nat) :
    mediumMove b ai hu r =
      match WIN_PATTERNS.findSome? (fun p => findWinningMove b p ai) with
      | some m => some m
      | none =>
        match WIN_PATTERNS.findSome? (fun p => findWinningMove b p hu) with
        | some m => some m
        | none => easyMove b r := by
  simp only [mediumMove, firstWinLoop_eq_findSome?]

/-! ## C8: checkResult -/

/-- One pattern step of the `checkResult` scan agrees with the
specification-side reading of the line, for any continuation. -/
theorem crStep_eq (b : Board) (p : List Nat) (k : Option GameResult) :
    (match b.getD (p.getD 0 0) none with
     | some mk =>
        if b.getD (p.getD 1 0) none = some mk ∧ b.getD (p.getD 2 0) none = some mk then
          some (GameResult.win mk p)
        else k
     | none => k) =
    (match (lineFilled b p).map (fun mk => GameResult.win mk p) with
     | some r => some r
     | none => k) := by
  unfold lineFilled
  cases hx : b.getD (p.getD 0 0) none with
  | none => simp
  | some mx =>
    cases hy : b.getD (p.getD 1 0) none with
    | none => simp
    | some my =>
      cases hz : b.getD (p.getD 2 0) none with
      | none => simp
      | some mz =>
        by_cases h1 : my = mx
        · by_cases h2 : mz = mx
          · simp [h1, h2]
          · simp [h1, h2, Ne.symm h2]
        · by_cases h2 : mz = mx
          · simp [h1, h2, Ne.symm h1]
          · simp [h1, h2, Ne.symm h1]

/-- The pattern scan of `checkResult` is the first filled line in scan
order. -/
theorem crLoop_eq_findSome? (b : Board) :
    ∀ ps : List (List Nat),
      crLoop b ps = ps.findSome? (fun p => (lineFilled b p).map (fun mk => GameResult.win mk p))
| [] => rfl
| p :: ps => by
  rw [List.findSome?_cons]
  have step := crStep_eq b p (crLoop b ps)
  simp only [crLoop]
  rw [step]
  cases (lineFilled b p).map (fun mk => GameResult.win mk p) with
  | none => exact crLoop_eq_findSome? b ps
  | some r => rfl

/-- C8. `checkResult` reports a win carrying the mark and the first line in
`WIN_PATTERNS` order whose three cells are non-empty and equal, else a draw
when no empty cell remains, else nothing; on `"XXX OO   "` it reports
win X on line `[0,1,2]`, and on the full board `"XOXXOOOXX"` a draw. -/
theorem checkResult_spec :
    (∀ b : Board, checkResult b = specCheckResult b) ∧
    checkResult demoWinX = some (GameResult.win Player.X [0, 1, 2]) ∧
    checkResult demoDrawB = some GameResult.draw := by
  refine ⟨fun b => ?_, by decide, by decide⟩
  unfold checkResult specCheckResult
  rw [crLoop_eq_findSome?]
  cases WIN_PATTERNS.findSome? (fun p => (lineFilled b p).map (fun mk => GameResult.win mk p)) with
  | none =>
    by_cases h : none ∈ b
    · simp [h]
    · simp [h]
  | some r => rfl

/-! ## C7: findWinningMove -/

/-- A 9-cell board is a literal list of nine cells. -/
theorem board_eq_nine : ∀ (b : Board), b.length = 9 →
    ∃ c0 c1 c2 c3 c4 c5 c6 c7 c8 : Cell, b = [c0, c1, c2, c3, c4, c5, c6, c7, c8]
| [c0,c1,c2,c3,c4,c5,c6,c7,c8], _ => ⟨c0,c1,c2,c3,c4,c5,c6,c7,c8, rfl⟩
| [], h => by simp at h
| [_], h => by simp at h
| [_,_], h => by simp at h
| [_,_,_], h => by simp at h
| [_,_,_,_], h => by simp at h
| [_,_,_,_,_], h => by simp at h
| [_,_,_,_,_,_], h => by simp at h
| [_,_,_,_,_,_,_], h => by simp at h
| [_,_,_,_,_,_,_,_], h => by simp at h
| (_::_::_::_::_::_::_::_::_::_::_), h => by simp at h

/-- C7. On a 9-cell board and a line of `WIN_PATTERNS`, `findWinningMove`
returns the first (and, by the second part, only) empty index of the line
exactly when the line holds the queried mark twice and an empty cell once;
in every other case it returns nothing. -/
theorem findWinningMove_iff (b : Board) (hb : b.length = 9) (p : List Nat)
    (hp : p ∈ WIN_PATTERNS) (mk : Player) :
    (findWinningMove b p mk =
      if ((p.map (fun i => b.getD i none)).count (some mk) = 2 ∧
          (p.map (fun i => b.getD i none)).count none = 1)
      then p.find? (fun i => (b.getD i none).isNone)
      else none) ∧
    ((p.map (fun i => b.getD i none)).count none = 1 ↔
      (p.filter (fun i => (b.getD i none).isNone)).length = 1) := by
  obtain ⟨c0,c1,c2,c3,c4,c5,c6,c7,c8, rfl⟩ := board_eq_nine b hb
  clear hb
  simp only [WIN_PATTERNS, List.mem_cons, List.not_mem_nil, or_false] at hp
  rcases hp with rfl | rfl | rfl | rfl | rfl | rfl | rfl | rfl <;>
    simp only [findWinningMove, List.map_cons, List.map_nil, List.find?_cons, List.find?_nil,
      List.filter_cons, List.filter_nil, List.getD, List.get?, Option.getD_some]
  · revert mk c0 c1 c2; decide
  · revert mk c3 c4 c5; decide
  · revert mk c6 c7 c8; decide
  · revert mk c0 c3 c6; decide
  · revert mk c1 c4 c7; decide
  · revert mk c2 c5 c8; decide
  · revert mk c0 c4 c8; decide
  · revert mk c2 c4 c6; decide

/-- Witness for `findWinningMove_iff` on a concrete board and line. -/
theorem findWinningMove_iff_witness :
    findWinningMove demoWinX [2, 4, 6] Player.O =
      (if (([2, 4, 6].map (fun i => demoWinX.getD i none)).count (some Player.O) = 2 ∧
           ([2, 4, 6].map (fun i => demoWinX.getD i none)).count none = 1)
       then [2, 4, 6].find? (fun i => (demoWinX.getD i none).isNone)
       else none) :=
  (findWinningMove_iff demoWinX (by decide) [2, 4, 6] (by decide) Player.O).1

/-! ## Fail-soft alpha-beta: the pruned search against the unpruned one -/

/-- The maximizing pruned loop never returns less than its entry best. -/
theorem maxLoop_fst_ge (rec : Board → Score → Score → Score × Board) (mk : Player) :
    ∀ (rest : List Nat) (b : Board) (α β best : Score),
      best ≤ (maxLoop rec mk rest b α β best).1 := by
  intro rest
  induction rest with
  | nil => intro b α β best; exact le_refl _
  | cons i rest ih =>
    intro b α β best
    simp only [maxLoop]
    by_cases h : b.getD i none = none
    · rw [if_pos h]
      by_cases hc : β ≤ max α (rec (b.set i (some mk)) α β).1
      · simpa [hc] using le_max_left _ _
      · simp only [hc, if_false]
        exact le_trans (le_max_left _ _) (ih _ _ _ _)
    · rw [if_neg h]; exact ih _ _ _ _

/-- The minimizing pruned loop never returns more than its entry best. -/
theorem minLoop_fst_le (rec : Board → Score → Score → Score × Board) (mk : Player) :
    ∀ (rest : List Nat) (b : Board) (α β best : Score),
      (minLoop rec mk rest b α β best).1 ≤ best := by
  intro rest
  induction rest with
  | nil => intro b α β best; exact le_refl _
  | cons i rest ih =>
    intro b α β best
    simp only [minLoop]
    by_cases h : b.getD i none = none
    · rw [if_pos h]
      by_cases hc : min β (rec (b.set i (some mk)) α β).1 ≤ α
      · simpa [hc] using min_le_left _ _
      · simp only [hc, if_false]
        exact le_trans (ih _ _ _ _) (min_le_left _ _)
    · rw [if_neg h]; exact ih _ _ _ _

/-- The unpruned maximizing fold never returns less than its entry best. -/
theorem npMaxLoop_ge (nrec : Board → Score) (mk : Player) :
    ∀ (rest : List Nat) (b : Board) (best : Score),
      best ≤ npMaxLoop nrec mk rest b best := by
  intro rest
  induction rest with
  | nil => intro b best; exact le_refl _
  | cons i rest ih =>
    intro b best
    simp only [npMaxLoop]
    by_cases h : b.getD i none = none
    · rw [if_pos h]
      exact le_trans (le_max_left _ _) (ih _ _)
    · rw [if_neg h]; exact ih _ _

/-- The unpruned minimizing fold never returns more than its entry best. -/
theorem npMinLoop_le (nrec : Board → Score) (mk : Player) :
    ∀ (rest : List Nat) (b : Board) (best : Score),
      npMinLoop nrec mk rest b best ≤ best := by
  intro rest
  induction rest with
  | nil => intro b best; exact le_refl _
  | cons i rest ih =>
    intro b best
    simp only [npMinLoop]
    by_cases h : b.getD i none = none
    · rw [if_pos h]
      exact le_trans (ih _ _) (min_le_left _ _)
    · rw [if_neg h]; exact ih _ _

/-- Fail-soft property of the maximizing pruned loop against the unpruned
fold, generic in the recursive calls `rec` (pruned, board-threading) and
`nrec` (unpruned): provided `rec` restores the board and is fail-soft
against `nrec` on every window, the loop result, run from a state with
`best ≤ α`, `bestN ≤ best` and `α < β`, satisfies the three Knuth–Moore
clauses against the fold result. -/
theorem maxLoopFS (rec : Board → Score → Score → Score × Board) (nrec : Board → Score)
    (mk : Player)
    (hrecb : ∀ b α β, (rec b α β).2 = b)
    (hFS : ∀ b α β, α < β →
      (((rec b α β).1 ≤ α → nrec b ≤ (rec b α β).1) ∧
       (α < (rec b α β).1 → (rec b α β).1 < β → (rec b α β).1 = nrec b) ∧
       (β ≤ (rec b α β).1 → (rec b α β).1 ≤ nrec b))) :
    ∀ (rest : List Nat) (b : Board) (α β best bestN : Score),
      α < β → best ≤ α → bestN ≤ best →
      (((maxLoop rec mk rest b α β best).1 ≤ α →
          npMaxLoop nrec mk rest b bestN ≤ (maxLoop rec mk rest b α β best).1) ∧
       (α < (maxLoop rec mk rest b α β best).1 → (maxLoop rec mk rest b α β best).1 < β →
          (maxLoop rec mk rest b α β best).1 = npMaxLoop nrec mk rest b bestN) ∧
       (β ≤ (maxLoop rec mk rest b α β best).1 →
          (maxLoop rec mk rest b α β best).1 ≤ npMaxLoop nrec mk rest b bestN)) := by
  intro rest
  induction rest with
  | nil =>
    intro b α β best bestN hαβ hba hnb
    refine ⟨fun _ => hnb, fun h1 _ => absurd (lt_of_lt_of_le h1 hba) (lt_irrefl α), fun h3 => ?_⟩
    exact absurd (lt_of_lt_of_le hαβ (le_trans h3 hba)) (lt_irrefl α)
  | cons i rest ih =>
    intro b α β best bestN hαβ hba hnb
    simp only [maxLoop, npMaxLoop]
    by_cases h : b.getD i none = none
    · rw [if_pos h, if_pos h]
      have hb1 : (rec (b.set i (some mk)) α β).2.set i none = b := by
        rw [hrecb, List.set_set, set_none_of_getD_none b i h]
      have child := hFS (b.set i (some mk)) α β hαβ
      set s := (rec (b.set i (some mk)) α β).1 with hs
      set v := nrec (b.set i (some mk)) with hv
      by_cases hc : β ≤ max α s
      · -- cutoff: the recursive score already reached beta
        rw [if_pos hc]
        dsimp only
        have hsβ : β ≤ s := by
          rcases le_total s α with hsa | has
          · rw [max_eq_left hsa] at hc; exact absurd hc (not_le_of_lt hαβ)
          · rwa [max_eq_right has] at hc
        have hRs : max best s = s :=
          max_eq_right (le_trans hba (le_trans (le_of_lt hαβ) hsβ))
        rw [hRs]
        refine ⟨fun h1 => absurd (lt_of_lt_of_le hαβ (le_trans hsβ h1)) (lt_irrefl α),
          fun _ h2 => absurd (lt_of_lt_of_le h2 hsβ) (lt_irrefl s), fun _ => ?_⟩
        exact le_trans (child.2.2 hsβ)
          (le_trans (le_max_right bestN v) (npMaxLoop_ge nrec mk rest b _))
      · -- no cutoff: continue the loop with the restored board
        rw [if_neg hc, hb1]
        have hα1β : max α s < β := lt_of_not_le hc
        have hb1' : max best s ≤ max α s := max_le_max hba (le_refl s)
        have hsv' : v ≤ max best s := by
          rcases lt_or_le α s with h' | h'
          · have hsβ : s < β := lt_of_le_of_lt (le_max_right α s) hα1β
            rw [← child.2.1 h' hsβ]
            exact le_max_right best s
          · exact le_trans (child.1 h') (le_max_right best s)
        have hnb1 : max bestN v ≤ max best s := max_le (le_trans hnb (le_max_left best s)) hsv'
        have IH := ih b (max α s) β (max best s) (max bestN v) hα1β hb1' hnb1
        refine ⟨fun h1 => IH.1 (le_trans h1 (le_max_left α s)), fun h1 h2 => ?_,
          fun h3 => IH.2.2 h3⟩
        by_cases hR : (maxLoop rec mk rest b (max α s) β (max best s)).1 ≤ max α s
        · have hVR := IH.1 hR
          have hsR : s ≤ (maxLoop rec mk rest b (max α s) β (max best s)).1 :=
            le_trans (le_max_right best s) (maxLoop_fst_ge rec mk rest b _ _ _)
          have hRs : (maxLoop rec mk rest b (max α s) β (max best s)).1 ≤ s := by
            rcases le_total s α with hsa | has
            · exact absurd (lt_of_lt_of_le h1 (le_trans hR (max_le (le_refl α) hsa)))
                (lt_irrefl α)
            · exact le_trans hR (max_le has (le_refl s))
          have hRs' : (maxLoop rec mk rest b (max α s) β (max best s)).1 = s :=
            le_antisymm hRs hsR
          rw [hRs'] at h1 h2 ⊢
          have hsv : s = v := child.2.1 h1 h2
          refine le_antisymm ?_ (by rw [← hRs']; exact hVR)
          rw [hsv]
          exact le_trans (le_max_right bestN v) (npMaxLoop_ge nrec mk rest b _)
        · exact IH.2.1 (lt_of_not_le hR) h2
    · rw [if_neg h, if_neg h]
      exact ih b α β best bestN hαβ hba hnb

/-- Fail-soft property of the minimizing pruned loop against the unpruned
fold; mirror image of `maxLoopFS`, run from a state with `β ≤ best`,
`best ≤ bestN` and `α < β`. -/
theorem minLoopFS (rec : Board → Score → Score → Score × Board) (nrec : Board → Score)
    (mk : Player)
    (hrecb : ∀ b α β, (rec b α β).2 = b)
    (hFS : ∀ b α β, α < β →
      (((rec b α β).1 ≤ α → nrec b ≤ (rec b α β).1) ∧
       (α < (rec b α β).1 → (rec b α β).1 < β → (rec b α β).1 = nrec b) ∧
       (β ≤ (rec b α β).1 → (rec b α β).1 ≤ nrec b))) :
    ∀ (rest : List Nat) (b : Board) (α β best bestN : Score),
      α < β → β ≤ best → best ≤ bestN →
      (((minLoop rec mk rest b α β best).1 ≤ α →
          npMinLoop nrec mk rest b bestN ≤ (minLoop rec mk rest b α β best).1) ∧
       (α < (minLoop rec mk rest b α β best).1 → (minLoop rec mk rest b α β best).1 < β →
          (minLoop rec mk rest b α β best).1 = npMinLoop nrec mk rest b bestN) ∧
       (β ≤ (minLoop rec mk rest b α β best).1 →
          (minLoop rec mk rest b α β best).1 ≤ npMinLoop nrec mk rest b bestN)) := by
  intro rest
  induction rest with
  | nil =>
    intro b α β best bestN hαβ hbb hnb
    refine ⟨fun h1 => ?_, fun _ h2 => absurd (lt_of_le_of_lt hbb h2) (lt_irrefl β),
      fun _ => hnb⟩
    exact absurd (lt_of_lt_of_le hαβ (le_trans hbb h1)) (lt_irrefl α)
  | cons i rest ih =>
    intro b α β best bestN hαβ hbb hnb
    simp only [minLoop, npMinLoop]
    by_cases h : b.getD i none = none
    · rw [if_pos h, if_pos h]
      have hb1 : (rec (b.set i (some mk)) α β).2.set i none = b := by
        rw [hrecb, List.set_set, set_none_of_getD_none b i h]
      have child := hFS (b.set i (some mk)) α β hαβ
      set s := (rec (b.set i (some mk)) α β).1 with hs
      set v := nrec (b.set i (some mk)) with hv
      by_cases hc : min β s ≤ α
      · -- cutoff: the recursive score already fell to alpha
        rw [if_pos hc]
        dsimp only
        have hsα : s ≤ α := by
          rcases le_total β s with hbs | hsb
          · rw [min_eq_left hbs] at hc; exact absurd hc (not_le_of_lt hαβ)
          · rwa [min_eq_right hsb] at hc
        have hRs : min best s = s :=
          min_eq_right (le_trans hsα (le_trans (le_of_lt hαβ) hbb))
        rw [hRs]
        refine ⟨fun _ => ?_, fun h1 _ => absurd (lt_of_lt_of_le h1 hsα) (lt_irrefl α),
          fun h3 => absurd (lt_of_lt_of_le hαβ (le_trans h3 hsα)) (lt_irrefl α)⟩
        exact le_trans (npMinLoop_le nrec mk rest b _)
          (le_trans (min_le_right bestN v) (child.1 hsα))
      · -- no cutoff: continue the loop with the restored board
        rw [if_neg hc, hb1]
        have hαβ1 : α < min β s := lt_of_not_le hc
        have hb1' : min β s ≤ min best s := min_le_min hbb (le_refl s)
        have hsv' : min best s ≤ v := by
          rcases lt_or_le s β with h' | h'
          · have hαs : α < s := lt_of_lt_of_le hαβ1 (min_le_right β s)
            rw [← child.2.1 hαs h']
            exact min_le_right best s
          · exact le_trans (min_le_right best s) (child.2.2 h')
        have hnb1 : min best s ≤ min bestN v := le_min (le_trans (min_le_left best s) hnb) hsv'
        have IH := ih b α (min β s) (min best s) (min bestN v) hαβ1 hb1' hnb1
        refine ⟨fun h1 => IH.1 h1, fun h1 h2 => ?_, fun h3 => ?_⟩
        · by_cases hR : min β s ≤ (minLoop rec mk rest b α (min β s) (min best s)).1
          · have hRV := IH.2.2 hR
            have hRs : (minLoop rec mk rest b α (min β s) (min best s)).1 ≤ s :=
              le_trans (minLoop_fst_le rec mk rest b _ _ _) (min_le_right best s)
            have hsR : s ≤ (minLoop rec mk rest b α (min β s) (min best s)).1 := by
              rcases le_total s β with hsb | hbs
              · exact le_trans (le_of_eq (min_eq_right hsb).symm) hR
              · exact absurd (lt_of_le_of_lt
                  (le_trans (le_of_eq (min_eq_left hbs).symm) hR) h2) (lt_irrefl β)
            have hRs' : (minLoop rec mk rest b α (min β s) (min best s)).1 = s :=
              le_antisymm hRs hsR
            rw [hRs'] at h1 h2 ⊢
            have hsv : s = v := child.2.1 h1 h2
            refine le_antisymm (by rw [← hRs']; exact hRV) ?_
            rw [hsv]
            exact le_trans (npMinLoop_le nrec mk rest b _) (min_le_right bestN v)
          · exact IH.2.1 h1 (lt_of_not_le hR)
        · exact IH.2.2 (le_trans (min_le_left β s) h3)
    · rw [if_neg h, if_neg h]
      exact ih b α β best bestN hαβ hbb hnb

/-- Knuth–Moore fail-soft theorem for the engine's search: at any window
`α < β`, the pruned score of `minimaxF` fails low with an upper bound, is
exact inside the window, and fails high with a lower bound, all against the
unpruned search `minimaxNPF` at the same fuel. -/
theorem minimaxF_FS : ∀ (fuel : Nat) (b : Board) (d : Nat) (m : Bool) (α β : Score)
    (ai hu : Player), α < β →
    (((minimaxF fuel b d m α β ai hu).1 ≤ α →
        minimaxNPF fuel b d m ai hu ≤ (minimaxF fuel b d m α β ai hu).1) ∧
     (α < (minimaxF fuel b d m α β ai hu).1 → (minimaxF fuel b d m α β ai hu).1 < β →
        (minimaxF fuel b d m α β ai hu).1 = minimaxNPF fuel b d m ai hu) ∧
     (β ≤ (minimaxF fuel b d m α β ai hu).1 →
        (minimaxF fuel b d m α β ai hu).1 ≤ minimaxNPF fuel b d m ai hu)) := by
  intro fuel
  induction fuel with
  | zero =>
    intro b d m α β ai hu _
    exact ⟨fun _ => le_refl _, fun _ _ => rfl, fun _ => le_refl _⟩
  | succ fuel ih =>
    intro b d m α β ai hu hαβ
    simp only [minimaxF, minimaxNPF]
    by_cases hw : getWinner b = some ai
    · rw [if_pos hw, if_pos hw]
      exact ⟨fun _ => le_refl _, fun _ _ => rfl, fun _ => le_refl _⟩
    · rw [if_neg hw, if_neg hw]
      by_cases hw2 : getWinner b = some hu
      · rw [if_pos hw2, if_pos hw2]
        exact ⟨fun _ => le_refl _, fun _ _ => rfl, fun _ => le_refl _⟩
      · rw [if_neg hw2, if_neg hw2]
        by_cases he : none ∈ b
        · rw [if_neg (not_not_intro he), if_neg (not_not_intro he)]
          cases m with
          | true =>
            rw [if_pos (rfl : (true : Bool) = true), if_pos (rfl : (true : Bool) = true)]
            exact maxLoopFS _ _ ai
              (fun b1 a1 b2 => minimaxF_board fuel b1 (d + 1) false a1 b2 ai hu)
              (fun b1 a1 b2 h => ih b1 (d + 1) false a1 b2 ai hu h)
              (List.range 9) b α β Score.negInf Score.negInf hαβ
              (Score.negInf_le α) (le_refl _)
          | false =>
            rw [if_neg Bool.false_ne_true, if_neg Bool.false_ne_true]
            exact minLoopFS _ _ hu
              (fun b1 a1 b2 => minimaxF_board fuel b1 (d + 1) true a1 b2 ai hu)
              (fun b1 a1 b2 h => ih b1 (d + 1) true a1 b2 ai hu h)
              (List.range 9) b α β Score.posInf Score.posInf hαβ
              (Score.le_posInf β) (le_refl _)
        · rw [if_pos he, if_pos he]
          exact ⟨fun _ => le_refl _, fun _ _ => rfl, fun _ => le_refl _⟩

/-- At the full window the pruned search equals the unpruned one (helper,
shared by several results below). -/
theorem minimax_eq_NP (b : Board) (d : Nat) (m : Bool) (ai hu : Player) :
    (minimax b d m Score.negInf Score.posInf ai hu).1 = minimaxNP b d m ai hu := by
  have h := minimaxF_FS (countEmpty b + 1) b d m Score.negInf Score.posInf ai hu (by decide)
  rcases le_or_lt (minimaxF (countEmpty b + 1) b d m Score.negInf Score.posInf ai hu).1
    Score.negInf with h1 | h1
  · exact le_antisymm (le_trans h1 (Score.negInf_le _)) (h.1 h1)
  · rcases lt_or_le (minimaxF (countEmpty b + 1) b d m Score.negInf Score.posInf ai hu).1
      Score.posInf with h2 | h2
    · exact h.2.1 h1 h2
    · exact le_antisymm (h.2.2 h2) (le_trans (Score.le_posInf _) h2)

/-- C2: for every board, depth, maximizing flag and pair of marks, `minimax`
invoked with the full window `alpha = -Infinity, beta = +Infinity` returns
exactly the same score as the identical recursive search `minimaxNP`
performed without the alpha-beta cutoff breaks: pruning never changes the
returned score. -/
theorem minimax_fullwindow_eq_unpruned (b : Board) (d : Nat) (m : Bool) (ai hu : Player) :
    (minimax b d m Score.negInf Score.posInf ai hu).1 = minimaxNP b d m ai hu :=
  minimax_eq_NP b d m ai hu

/-! ## Finiteness and bounds of the returned score -/

/-- Counting empties of a cons cell by cell. -/
theorem countEmpty_cons (c : Cell) (t : Board) :
    countEmpty (c :: t) = (if c = none then 1 else 0) + countEmpty t := by
  have hf : ((fun i => decide ((c :: t).getD i none = none)) ∘ Nat.succ)
      = (fun i => decide (t.getD i none = none)) := by
    funext i
    simp [List.getD_cons_succ]
  simp only [countEmpty, getEmptyCells, List.length_cons, List.range_succ_eq_map,
    List.filter_cons, List.getD_cons_zero, List.filter_map, hf]
  by_cases hc : c = none
  · rw [if_pos (by simp [hc]), if_pos hc]
    simp only [List.length_cons, List.length_map]
    omega
  · rw [if_neg (by simp [hc]), if_neg hc]
    simp only [List.length_map]
    omega

/-- Placing a mark on an empty in-range cell decreases the empty count by
exactly one. -/
theorem countEmpty_set (mk : Player) : ∀ (b : Board) (i : Nat),
    b.getD i none = none → i < b.length →
    countEmpty (b.set i (some mk)) + 1 = countEmpty b
| [], _, _, hl => absurd hl (by simp)
| c :: t, 0, he, _ => by
  have hc : c = none := by simpa [List.getD_cons_zero] using he
  simp [List.set, countEmpty_cons, hc, Nat.add_comm]
| c :: t, i + 1, he, hl => by
  have h := countEmpty_set mk t i (by simpa [List.getD_cons_succ] using he)
    (by simpa using hl)
  simp only [List.set, countEmpty_cons]
  by_cases hc : c = none <;> simp [hc] <;> omega

/-- There are never more empty cells than cells. -/
theorem countEmpty_le_length (b : Board) : countEmpty b ≤ b.length := by
  have h := List.length_filter_le (fun i => decide (b.getD i none = none))
    (List.range b.length)
  simpa [countEmpty, getEmptyCells] using h

/-- A board containing an empty cell has one at an in-range index. -/
theorem exists_empty_index {b : Board} (he : none ∈ b) :
    ∃ i, i < b.length ∧ b.getD i none = none := by
  obtain ⟨i, hi, hbi⟩ := List.mem_iff_getElem.mp he
  exact ⟨i, hi, by simp [List.getD_eq_getElem?_getD, List.getElem?_eq_getElem hi, hbi]⟩

/-- The unpruned maximizing fold returns a bounded finite value whenever all
its candidate scores are bounded finite values and either some candidate is
taken or the entry best is already a bounded finite value. -/
theorem npMaxLoop_val (nrec : Board → Score) (mk : Player) (lo hi : ℤ) :
    ∀ (rest : List Nat) (b : Board) (best : Score),
      (∀ i ∈ rest, b.getD i none = none →
        ∃ z : ℤ, nrec (b.set i (some mk)) = Score.val z ∧ lo ≤ z ∧ z ≤ hi) →
      ((∃ i ∈ rest, b.getD i none = none) ∨
        ∃ zb : ℤ, best = Score.val zb ∧ lo ≤ zb ∧ zb ≤ hi) →
      (best = Score.negInf ∨ ∃ zb : ℤ, best = Score.val zb ∧ lo ≤ zb ∧ zb ≤ hi) →
      ∃ z : ℤ, npMaxLoop nrec mk rest b best = Score.val z ∧ lo ≤ z ∧ z ≤ hi := by
  intro rest
  induction rest with
  | nil =>
    intro b best _ hne hbest
    rcases hne with ⟨i, hi, _⟩ | h
    · exact absurd hi (List.not_mem_nil i)
    · simpa [npMaxLoop] using h
  | cons i rest ih =>
    intro b best hrec hne hbest
    simp only [npMaxLoop]
    by_cases h : b.getD i none = none
    · rw [if_pos h]
      obtain ⟨z, hz, hlo, hhi⟩ := hrec i (List.mem_cons_self i rest) h
      have hb1 : ∃ zb : ℤ, max best (nrec (b.set i (some mk))) = Score.val zb ∧
          lo ≤ zb ∧ zb ≤ hi := by
        rcases hbest with hb | ⟨zb, hzb, hblo, hbhi⟩
        · exact ⟨z, by rw [hb, hz, max_eq_right (Score.negInf_le _)], hlo, hhi⟩
        · rcases le_total best (nrec (b.set i (some mk))) with hle | hle
          · exact ⟨z, by rw [max_eq_right hle, hz], hlo, hhi⟩
          · exact ⟨zb, by rw [max_eq_left hle, hzb], hblo, hbhi⟩
      exact ih b _ (fun j hj hjem => hrec j (List.mem_cons_of_mem _ hj) hjem)
        (Or.inr hb1) (Or.inr hb1)
    · rw [if_neg h]
      refine ih b best (fun j hj hjem => hrec j (List.mem_cons_of_mem _ hj) hjem) ?_ hbest
      rcases hne with ⟨j, hj, hjem⟩ | hb
      · rcases List.mem_cons.mp hj with rfl | hj'
        · exact absurd hjem h
        · exact Or.inl ⟨j, hj', hjem⟩
      · exact Or.inr hb

/-- Mirror of `npMaxLoop_val` for the minimizing fold. -/
theorem npMinLoop_val (nrec : Board → Score) (mk : Player) (lo hi : ℤ) :
    ∀ (rest : List Nat) (b : Board) (best : Score),
      (∀ i ∈ rest, b.getD i none = none →
        ∃ z : ℤ, nrec (b.set i (some mk)) = Score.val z ∧ lo ≤ z ∧ z ≤ hi) →
      ((∃ i ∈ rest, b.getD i none = none) ∨
        ∃ zb : ℤ, best = Score.val zb ∧ lo ≤ zb ∧ zb ≤ hi) →
      (best = Score.posInf ∨ ∃ zb : ℤ, best = Score.val zb ∧ lo ≤ zb ∧ zb ≤ hi) →
      ∃ z : ℤ, npMinLoop nrec mk rest b best = Score.val z ∧ lo ≤ z ∧ z ≤ hi := by
  intro rest
  induction rest with
  | nil =>
    intro b best _ hne hbest
    rcases hne with ⟨i, hi, _⟩ | h
    · exact absurd hi (List.not_mem_nil i)
    · simpa [npMinLoop] using h
  | cons i rest ih =>
    intro b best hrec hne hbest
    simp only [npMinLoop]
    by_cases h : b.getD i none = none
    · rw [if_pos h]
      obtain ⟨z, hz, hlo, hhi⟩ := hrec i (List.mem_cons_self i rest) h
      have hb1 : ∃ zb : ℤ, min best (nrec (b.set i (some mk))) = Score.val zb ∧
          lo ≤ zb ∧ zb ≤ hi := by
        rcases hbest with hb | ⟨zb, hzb, hblo, hbhi⟩
        · exact ⟨z, by rw [hb, hz, min_eq_right (Score.le_posInf _)], hlo, hhi⟩
        · rcases le_total best (nrec (b.set i (some mk))) with hle | hle
          · exact ⟨zb, by rw [min_eq_left hle, hzb], hblo, hbhi⟩
          · exact ⟨z, by rw [min_eq_right hle, hz], hlo, hhi⟩
      exact ih b _ (fun j hj hjem => hrec j (List.mem_cons_of_mem _ hj) hjem)
        (Or.inr hb1) (Or.inr hb1)
    · rw [if_neg h]
      refine ih b best (fun j hj hjem => hrec j (List.mem_cons_of_mem _ hj) hjem) ?_ hbest
      rcases hne with ⟨j, hj, hjem⟩ | hb
      · rcases List.mem_cons.mp hj with rfl | hj'
        · exact absurd hjem h
        · exact Or.inl ⟨j, hj', hjem⟩
      · exact Or.inr hb

/-- On 9-cell boards with enough fuel, the unpruned search always returns a
finite value between `depth - 10` and `10 - depth`: the terminal cases are in
that range and every non-terminal position has an empty cell that seeds the
running best with a real recursive score. -/
theorem minimaxNPF_bounds : ∀ (fuel : Nat) (b : Board) (d : Nat) (m : Bool) (ai hu : Player),
    b.length = 9 → countEmpty b < fuel → d + countEmpty b ≤ 9 →
    ∃ z : ℤ, minimaxNPF fuel b d m ai hu = Score.val z ∧
      (d : ℤ) - 10 ≤ z ∧ z ≤ 10 - (d : ℤ) := by
  intro fuel
  induction fuel with
  | zero =>
    intro b d m ai hu _ hf _
    exact absurd hf (Nat.not_lt_zero _)
  | succ fuel ih =>
    intro b d m ai hu hb hf hd
    simp only [minimaxNPF]
    by_cases hw : getWinner b = some ai
    · rw [if_pos hw]
      exact ⟨10 - (d : ℤ), rfl, by omega, by omega⟩
    · rw [if_neg hw]
      by_cases hw2 : getWinner b = some hu
      · rw [if_pos hw2]
        exact ⟨(d : ℤ) - 10, rfl, by omega, by omega⟩
      · rw [if_neg hw2]
        by_cases he : none ∈ b
        · rw [if_neg (not_not_intro he)]
          obtain ⟨i0, hi0, hbi0⟩ := exists_empty_index he
          have hrec : ∀ (mk : Player) (m' : Bool) (i : Nat), i ∈ List.range 9 →
              b.getD i none = none →
              ∃ z : ℤ, minimaxNPF fuel (b.set i (some mk)) (d + 1) m' ai hu = Score.val z ∧
                (d : ℤ) - 10 ≤ z ∧ z ≤ 10 - (d : ℤ) := by
            intro mk m' i hi hbi
            have hil : i < b.length := by rw [hb]; exact List.mem_range.mp hi
            have hcs := countEmpty_set mk b i hbi hil
            obtain ⟨z, hz, hlo, hhi⟩ := ih (b.set i (some mk)) (d + 1) m' ai hu
              (by rw [List.length_set, hb]) (by omega) (by omega)
            exact ⟨z, hz, by omega, by omega⟩
          cases m with
          | true =>
            rw [if_pos (rfl : (true : Bool) = true)]
            exact npMaxLoop_val _ ai ((d : ℤ) - 10) (10 - (d : ℤ)) (List.range 9) b
              Score.negInf (hrec ai false)
              (Or.inl ⟨i0, List.mem_range.mpr (by omega), hbi0⟩) (Or.inl rfl)
          | false =>
            rw [if_neg Bool.false_ne_true]
            exact npMinLoop_val _ hu ((d : ℤ) - 10) (10 - (d : ℤ)) (List.range 9) b
              Score.posInf (hrec hu true)
              (Or.inl ⟨i0, List.mem_range.mpr (by omega), hbi0⟩) (Or.inl rfl)
        · rw [if_pos he]
          exact ⟨0, rfl, by omega, by omega⟩

/-- C10: for every 9-cell board and marks, `minimax` at depth 0 with the full
window returns a finite integer score between -10 and 10: the
`-Infinity`/`+Infinity` sentinels that initialize the running best can never
be the returned result, because any position not caught by the three terminal
base cases has at least one empty cell, so the candidate loop assigns a real
recursive score to the running best at least once. -/
theorem minimax_depth0_bounded (b : Board) (m : Bool) (ai hu : Player)
    (hb : b.length = 9) :
    ∃ z : ℤ, (minimax b 0 m Score.negInf Score.posInf ai hu).1 = Score.val z ∧
      -10 ≤ z ∧ z ≤ 10 := by
  have hce := countEmpty_le_length b
  obtain ⟨z, hz, hlo, hhi⟩ := minimaxNPF_bounds (countEmpty b + 1) b 0 m ai hu hb
    (Nat.lt_succ_self _) (by omega)
  refine ⟨z, ?_, by omega, by omega⟩
  rw [minimax_eq_NP]
  exact hz

open Player in
/-- Witness for `minimax_depth0_bounded` at the drawn board. -/
theorem minimax_depth0_bounded_witness :
    demoDrawB.length = 9 ∧
    ∃ z : ℤ, (minimax demoDrawB 0 true Score.negInf Score.posInf X O).1 = Score.val z ∧
      -10 ≤ z ∧ z ≤ 10 :=
  ⟨by decide, minimax_depth0_bounded demoDrawB true X O (by decide)⟩

/-! ## The hard strategy is a first-seen argmax -/

/-- Characterization of the probe loop of `hardMove`: on a strictly
increasing list of empty cells, either no candidate beats the entry best
score and the entry move is returned, or the returned move is the first
candidate of maximal probe score that strictly beats the entry best. -/
theorem hmLoop_spec (ai hu : Player) :
    ∀ (l : List Nat) (b : Board) (bs : Score) (bm : Option Nat),
      (∀ i ∈ l, b.getD i none = none) → l.Pairwise (· < ·) →
      (((∀ i ∈ l,
          (minimax (b.set i (some ai)) 0 false Score.negInf Score.posInf ai hu).1 ≤ bs) ∧
        (hmLoop ai hu l b bs bm).1 = bm) ∨
       (∃ i ∈ l, (hmLoop ai hu l b bs bm).1 = some i ∧
         bs < (minimax (b.set i (some ai)) 0 false Score.negInf Score.posInf ai hu).1 ∧
         (∀ j ∈ l,
           (minimax (b.set j (some ai)) 0 false Score.negInf Score.posInf ai hu).1 ≤
           (minimax (b.set i (some ai)) 0 false Score.negInf Score.posInf ai hu).1) ∧
         (∀ j ∈ l, j < i →
           (minimax (b.set j (some ai)) 0 false Score.negInf Score.posInf ai hu).1 <
           (minimax (b.set i (some ai)) 0 false Score.negInf Score.posInf ai hu).1))) := by
  intro l
  induction l with
  | nil =>
    intro b bs bm _ _
    exact Or.inl ⟨fun i hi => absurd hi (List.not_mem_nil i), rfl⟩
  | cons idx rest ih =>
    intro b bs bm hemp hpw
    have hidx : b.getD idx none = none := hemp idx (List.mem_cons_self idx rest)
    have hgt : ∀ j ∈ rest, idx < j := (List.pairwise_cons.mp hpw).1
    have hpw' : rest.Pairwise (· < ·) := (List.pairwise_cons.mp hpw).2
    have hemp' : ∀ i ∈ rest, b.getD i none = none :=
      fun i hi => hemp i (List.mem_cons_of_mem _ hi)
    simp only [hmLoop]
    have hb2 : ((minimax (b.set idx (some ai)) 0 false Score.negInf Score.posInf ai hu).2).set
        idx none = b := by
      rw [minimax, minimaxF_board, List.set_set, set_none_of_getD_none b idx hidx]
    rw [hb2]
    set s := (minimax (b.set idx (some ai)) 0 false Score.negInf Score.posInf ai hu).1 with hsdef
    by_cases hlt : bs < s
    · rw [if_pos hlt]
      rcases ih b s (some idx) hemp' hpw' with ⟨hall, hR⟩ | ⟨i, hi, hR, hbs, hmax, hfirst⟩
      · refine Or.inr ⟨idx, List.mem_cons_self idx rest, hR, hlt, ?_, ?_⟩
        · intro j hj
          rcases List.mem_cons.mp hj with rfl | hj'
          · exact le_refl _
          · exact hall j hj'
        · intro j hj hji
          rcases List.mem_cons.mp hj with rfl | hj'
          · exact absurd hji (lt_irrefl j)
          · exact absurd hji (not_lt_of_lt (hgt j hj'))
      · refine Or.inr ⟨i, List.mem_cons_of_mem _ hi, hR, lt_trans hlt hbs, ?_, ?_⟩
        · intro j hj
          rcases List.mem_cons.mp hj with rfl | hj'
          · exact le_of_lt hbs
          · exact hmax j hj'
        · intro j hj hji
          rcases List.mem_cons.mp hj with rfl | hj'
          · exact hbs
          · exact hfirst j hj' hji
    · rw [if_neg hlt]
      have hsb : s ≤ bs := not_lt.mp hlt
      rcases ih b bs bm hemp' hpw' with ⟨hall, hR⟩ | ⟨i, hi, hR, hbs, hmax, hfirst⟩
      · refine Or.inl ⟨?_, hR⟩
        intro j hj
        rcases List.mem_cons.mp hj with rfl | hj'
        · exact hsb
        · exact hall j hj'
      · refine Or.inr ⟨i, List.mem_cons_of_mem _ hi, hR, hbs, ?_, ?_⟩
        · intro j hj
          rcases List.mem_cons.mp hj with rfl | hj'
          · exact le_trans hsb (le_of_lt hbs)
          · exact hmax j hj'
        · intro j hj hji
          rcases List.mem_cons.mp hj with rfl | hj'
          · exact lt_of_le_of_lt hsb hbs
          · exact hfirst j hj' hji

/-- C5: on a 9-cell board, `hardMove` returns the empty-cell index whose
full-window probe score `minimax(board with the AI mark placed there, 0,
false, -Infinity, +Infinity, ai, human)` is greatest among all empty cells,
and among equally-scored cells the first in ascending index order (the
tracked best is replaced only on strict improvement); on a board with no
empty cells it returns none. -/
theorem hardMove_first_argmax (b : Board) (ai hu : Player) (hb : b.length = 9) :
    (¬ none ∈ b → (hardMove b ai hu).1 = none) ∧
    (none ∈ b → ∃ i ∈ getEmptyCells b, (hardMove b ai hu).1 = some i ∧
      (∀ j ∈ getEmptyCells b,
        (minimax (b.set j (some ai)) 0 false Score.negInf Score.posInf ai hu).1 ≤
        (minimax (b.set i (some ai)) 0 false Score.negInf Score.posInf ai hu).1) ∧
      (∀ j ∈ getEmptyCells b, j < i →
        (minimax (b.set j (some ai)) 0 false Score.negInf Score.posInf ai hu).1 <
        (minimax (b.set i (some ai)) 0 false Score.negInf Score.posInf ai hu).1)) := by
  constructor
  · intro hf
    simp [hardMove, getEmptyCells_eq_nil hf, hmLoop]
  · intro he
    have hemp : ∀ i ∈ getEmptyCells b, b.getD i none = none :=
      fun i hi => (mem_getEmptyCells.1 hi).2
    have hpw : (getEmptyCells b).Pairwise (· < ·) :=
      (List.pairwise_lt_range b.length).filter _
    rcases hmLoop_spec ai hu (getEmptyCells b) b Score.negInf none hemp hpw with
      ⟨hall, _⟩ | ⟨i, hi, hR, _, hmax, hfirst⟩
    · obtain ⟨i0, hi0l, hbi0⟩ := exists_empty_index he
      have hi0 : i0 ∈ getEmptyCells b := mem_getEmptyCells.2 ⟨hi0l, hbi0⟩
      have hc9 : countEmpty (b.set i0 (some ai)) ≤ 9 := by
        have h1 := countEmpty_le_length (b.set i0 (some ai))
        rwa [List.length_set, hb] at h1
      obtain ⟨z, hz, _, _⟩ := minimaxNPF_bounds (countEmpty (b.set i0 (some ai)) + 1)
        (b.set i0 (some ai)) 0 false ai hu (by rw [List.length_set, hb])
        (Nat.lt_succ_self _) (by omega)
      have hz' : (minimax (b.set i0 (some ai)) 0 false Score.negInf Score.posInf ai hu).1
          = Score.val z := by
        rw [minimax_eq_NP]
        exact hz
      have hle := hall i0 hi0
      rw [hz'] at hle
      exact absurd (le_antisymm hle (Score.negInf_le _)) (fun h => Score.noConfusion h)
    · exact ⟨i, hi, hR, hmax, hfirst⟩

open Player in
/-- Witness for `hardMove_first_argmax`: the full drawn board yields no move;
on the board `"XXX OO   "` a first-seen maximal-score empty cell is chosen. -/
theorem hardMove_first_argmax_witness :
    (demoDrawB.length = 9 ∧ ¬ none ∈ demoDrawB ∧ (hardMove demoDrawB X O).1 = none) ∧
    (demoWinX.length = 9 ∧ none ∈ demoWinX ∧
      ∃ i ∈ getEmptyCells demoWinX, (hardMove demoWinX X O).1 = some i ∧
        (∀ j ∈ getEmptyCells demoWinX,
          (minimax (demoWinX.set j (some X)) 0 false Score.negInf Score.posInf X O).1 ≤
          (minimax (demoWinX.set i (some X)) 0 false Score.negInf Score.posInf X O).1) ∧
        (∀ j ∈ getEmptyCells demoWinX, j < i →
          (minimax (demoWinX.set j (some X)) 0 false Score.negInf Score.posInf X O).1 <
          (minimax (demoWinX.set i (some X)) 0 false Score.negInf Score.posInf X O).1)) :=
  ⟨⟨by decide, by decide, (hardMove_first_argmax demoDrawB X O (by decide)).1 (by decide)⟩,
   ⟨by decide, by decide, (hardMove_first_argmax demoWinX X O (by decide)).2 (by decide)⟩⟩

/-! ## Further facts about the unpruned folds -/

/-- Each explored candidate bounds the maximizing fold from below. -/
theorem child_le_npMaxLoop (nrec : Board → Score) (mk : Player) :
    ∀ (rest : List Nat) (b : Board) (best : Score) (i : Nat), i ∈ rest →
      b.getD i none = none →
      nrec (b.set i (some mk)) ≤ npMaxLoop nrec mk rest b best := by
  intro rest
  induction rest with
  | nil => intro b best i hi; exact absurd hi (List.not_mem_nil i)
  | cons j rest ih =>
    intro b best i hi hiem
    simp only [npMaxLoop]
    rcases List.mem_cons.mp hi with rfl | hi'
    · rw [if_pos hiem]
      exact le_trans (le_max_right _ _) (npMaxLoop_ge _ _ _ _ _)
    · by_cases h : b.getD j none = none
      · rw [if_pos h]; exact ih b _ i hi' hiem
      · rw [if_neg h]; exact ih b best i hi' hiem

/-- The minimizing fold bounds each explored candidate from below. -/
theorem npMinLoop_le_child (nrec : Board → Score) (mk : Player) :
    ∀ (rest : List Nat) (b : Board) (best : Score) (i : Nat), i ∈ rest →
      b.getD i none = none →
      npMinLoop nrec mk rest b best ≤ nrec (b.set i (some mk)) := by
  intro rest
  induction rest with
  | nil => intro b best i hi; exact absurd hi (List.not_mem_nil i)
  | cons j rest ih =>
    intro b best i hi hiem
    simp only [npMinLoop]
    rcases List.mem_cons.mp hi with rfl | hi'
    · rw [if_pos hiem]
      exact le_trans (npMinLoop_le _ _ _ _ _) (min_le_right _ _)
    · by_cases h : b.getD j none = none
      · rw [if_pos h]; exact ih b _ i hi' hiem
      · rw [if_neg h]; exact ih b best i hi' hiem

/-- A common lower bound of the entry best and all candidates bounds the
minimizing fold. -/
theorem le_npMinLoop_of_all (nrec : Board → Score) (mk : Player) (v : Score) :
    ∀ (rest : List Nat) (b : Board) (best : Score), v ≤ best →
      (∀ i ∈ rest, b.getD i none = none → v ≤ nrec (b.set i (some mk))) →
      v ≤ npMinLoop nrec mk rest b best := by
  intro rest
  induction rest with
  | nil => intro b best hv _; exact hv
  | cons j rest ih =>
    intro b best hv hall
    simp only [npMinLoop]
    by_cases h : b.getD j none = none
    · rw [if_pos h]
      exact ih b _ (le_min hv (hall j (List.mem_cons_self j rest) h))
        (fun i hi hiem => hall i (List.mem_cons_of_mem _ hi) hiem)
    · rw [if_neg h]
      exact ih b best hv (fun i hi hiem => hall i (List.mem_cons_of_mem _ hi) hiem)

/-- The maximizing fold returns its entry best or the value of one of the
explored candidates. -/
theorem npMaxLoop_mem (nrec : Board → Score) (mk : Player) :
    ∀ (rest : List Nat) (b : Board) (best : Score),
      npMaxLoop nrec mk rest b best = best ∨
      ∃ i ∈ rest, b.getD i none = none ∧
        npMaxLoop nrec mk rest b best = nrec (b.set i (some mk)) := by
  intro rest
  induction rest with
  | nil => intro b best; exact Or.inl rfl
  | cons j rest ih =>
    intro b best
    simp only [npMaxLoop]
    by_cases h : b.getD j none = none
    · rw [if_pos h]
      rcases ih b (max best (nrec (b.set j (some mk)))) with hR | ⟨i, hi, hiem, hR⟩
      · rcases max_choice best (nrec (b.set j (some mk))) with hm | hm
        · exact Or.inl (by rw [hR, hm])
        · exact Or.inr ⟨j, List.mem_cons_self j rest, h, by rw [hR, hm]⟩
      · exact Or.inr ⟨i, List.mem_cons_of_mem _ hi, hiem, hR⟩
    · rw [if_neg h]
      rcases ih b best with hR | ⟨i, hi, hiem, hR⟩
      · exact Or.inl hR
      · exact Or.inr ⟨i, List.mem_cons_of_mem _ hi, hiem, hR⟩

/-- The sign of the unpruned value does not depend on the entry depth, as
long as the game cannot run past depth 9 (terminal values `10 - d` stay
positive and `d - 10` negative): nonnegativity at one admissible entry depth
transfers to any other. -/
theorem minimaxNPF_nonneg_depth : ∀ (fuel : Nat) (b : Board) (d d' : Nat) (m : Bool)
    (ai hu : Player), b.length = 9 → countEmpty b < fuel →
    d + countEmpty b ≤ 9 → d' + countEmpty b ≤ 9 →
    (Score.val 0 ≤ minimaxNPF fuel b d m ai hu ↔
     Score.val 0 ≤ minimaxNPF fuel b d' m ai hu) := by
  intro fuel
  induction fuel with
  | zero => intro b d d' m ai hu _ hf _ _; exact absurd hf (Nat.not_lt_zero _)
  | succ fuel ih =>
    intro b d d' m ai hu hb hf hd hd'
    simp only [minimaxNPF]
    by_cases hw : getWinner b = some ai
    · rw [if_pos hw, if_pos hw]
      exact iff_of_true (Score.val_le_val.mpr (by omega)) (Score.val_le_val.mpr (by omega))
    · rw [if_neg hw, if_neg hw]
      by_cases hw2 : getWinner b = some hu
      · rw [if_pos hw2, if_pos hw2]
        exact iff_of_false (fun h => absurd (Score.val_le_val.mp h) (by omega))
          (fun h => absurd (Score.val_le_val.mp h) (by omega))
      · rw [if_neg hw2, if_neg hw2]
        by_cases he : none ∈ b
        · rw [if_neg (not_not_intro he), if_neg (not_not_intro he)]
          have hch : ∀ (mk : Player) (m' : Bool) (i : Nat), b.getD i none = none → i < 9 →
              (Score.val 0 ≤ minimaxNPF fuel (b.set i (some mk)) (d + 1) m' ai hu ↔
               Score.val 0 ≤ minimaxNPF fuel (b.set i (some mk)) (d' + 1) m' ai hu) := by
            intro mk m' i hiem hi9
            have hil : i < b.length := by omega
            have hcs := countEmpty_set mk b i hiem hil
            exact ih (b.set i (some mk)) (d + 1) (d' + 1) m' ai hu
              (by rw [List.length_set, hb]) (by omega) (by omega) (by omega)
          cases m with
          | true =>
            rw [if_pos (rfl : (true : Bool) = true), if_pos (rfl : (true : Bool) = true)]
            constructor
            · intro h
              rcases npMaxLoop_mem (fun b1 => minimaxNPF fuel b1 (d + 1) false ai hu) ai
                (List.range 9) b Score.negInf with hR | ⟨i, hi, hiem, hR⟩
              · rw [hR] at h
                exact absurd (le_antisymm h (Score.negInf_le _)) (fun hc => Score.noConfusion hc)
              · rw [hR] at h
                exact le_trans ((hch ai false i hiem (List.mem_range.mp hi)).mp h)
                  (child_le_npMaxLoop (fun b1 => minimaxNPF fuel b1 (d' + 1) false ai hu)
                    ai (List.range 9) b Score.negInf i hi hiem)
            · intro h
              rcases npMaxLoop_mem (fun b1 => minimaxNPF fuel b1 (d' + 1) false ai hu) ai
                (List.range 9) b Score.negInf with hR | ⟨i, hi, hiem, hR⟩
              · rw [hR] at h
                exact absurd (le_antisymm h (Score.negInf_le _)) (fun hc => Score.noConfusion hc)
              · rw [hR] at h
                exact le_trans ((hch ai false i hiem (List.mem_range.mp hi)).mpr h)
                  (child_le_npMaxLoop (fun b1 => minimaxNPF fuel b1 (d + 1) false ai hu)
                    ai (List.range 9) b Score.negInf i hi hiem)
          | false =>
            rw [if_neg Bool.false_ne_true, if_neg Bool.false_ne_true]
            constructor
            · intro h
              refine le_npMinLoop_of_all _ hu _ (List.range 9) b Score.posInf
                (Score.le_posInf _) ?_
              intro i hi hiem
              exact (hch hu true i hiem (List.mem_range.mp hi)).mp
                (le_trans h (npMinLoop_le_child _ hu (List.range 9) b Score.posInf i hi hiem))
            · intro h
              refine le_npMinLoop_of_all _ hu _ (List.range 9) b Score.posInf
                (Score.le_posInf _) ?_
              intro i hi hiem
              exact (hch hu true i hiem (List.mem_range.mp hi)).mpr
                (le_trans h (npMinLoop_le_child _ hu (List.range 9) b Score.posInf i hi hiem))
        · rw [if_pos he, if_pos he]

/-! ## Mark-swap equivariance -/

/-- Cell reads on the swapped board. -/
theorem getD_swapB (b : Board) (i : Nat) :
    (swapB b).getD i none = Option.map swapP (b.getD i none) := by
  rw [List.getD_eq_getElem?_getD, List.getD_eq_getElem?_getD, swapB, List.getElem?_map]
  cases b[i]? with
  | none => rfl
  | some c => rfl

/-- A swapped cell equals a swapped target iff the original cell equals the
original target. -/
theorem map_swapP_eq_some (c : Cell) (mk : Player) :
    Option.map swapP c = some (swapP mk) ↔ c = some mk := by
  cases c with
  | none => simp
  | some p => cases p <;> cases mk <;> decide

/-- The winner scan commutes with swapping the marks. -/
theorem gwLoop_swapB (b : Board) : ∀ pats : List (List Nat),
    gwLoop (swapB b) pats = Option.map swapP (gwLoop b pats)
| [] => rfl
| p :: rest => by
  simp only [gwLoop, getD_swapB]
  cases hx : b.getD (p.getD 0 0) none with
  | none => simpa using gwLoop_swapB b rest
  | some mk =>
    simp only [Option.map_some', map_swapP_eq_some, gwLoop_swapB b rest,
      apply_ite (Option.map swapP)]

/-- `getWinner` commutes with swapping the marks. -/
theorem getWinner_swapB (b : Board) :
    getWinner (swapB b) = Option.map swapP (getWinner b) :=
  gwLoop_swapB b WIN_PATTERNS

/-- Mark writes commute with swapping the marks. -/
theorem swapB_set (b : Board) (i : Nat) (mk : Player) :
    swapB (b.set i (some mk)) = (swapB b).set i (some (swapP mk)) := by
  simp [swapB, List.map_set]

/-- Swapping the marks keeps the empty cells. -/
theorem none_mem_swapB (b : Board) : none ∈ swapB b ↔ none ∈ b := by
  simp [swapB, List.mem_map, Option.map_eq_none']

/-- The maximizing fold only depends on the emptiness pattern and the
candidate values. -/
theorem npMaxLoop_congr (nrec nrec' : Board → Score) (mk mk' : Player) (b b' : Board)
    (hcell : ∀ i, (b'.getD i none = none ↔ b.getD i none = none))
    (hrec : ∀ i, b.getD i none = none →
      nrec' (b'.set i (some mk')) = nrec (b.set i (some mk))) :
    ∀ (rest : List Nat) (best : Score),
      npMaxLoop nrec' mk' rest b' best = npMaxLoop nrec mk rest b best := by
  intro rest
  induction rest with
  | nil => intro best; rfl
  | cons i rest ih =>
    intro best
    simp only [npMaxLoop]
    by_cases h : b.getD i none = none
    · rw [if_pos h, if_pos ((hcell i).mpr h), hrec i h]
      exact ih _
    · rw [if_neg h, if_neg (fun hc => h ((hcell i).mp hc))]
      exact ih _

/-- The minimizing fold only depends on the emptiness pattern and the
candidate values. -/
theorem npMinLoop_congr (nrec nrec' : Board → Score) (mk mk' : Player) (b b' : Board)
    (hcell : ∀ i, (b'.getD i none = none ↔ b.getD i none = none))
    (hrec : ∀ i, b.getD i none = none →
      nrec' (b'.set i (some mk')) = nrec (b.set i (some mk))) :
    ∀ (rest : List Nat) (best : Score),
      npMinLoop nrec' mk' rest b' best = npMinLoop nrec mk rest b best := by
  intro rest
  induction rest with
  | nil => intro best; rfl
  | cons i rest ih =>
    intro best
    simp only [npMinLoop]
    by_cases h : b.getD i none = none
    · rw [if_pos h, if_pos ((hcell i).mpr h), hrec i h]
      exact ih _
    · rw [if_neg h, if_neg (fun hc => h ((hcell i).mp hc))]
      exact ih _

/-- The unpruned search is equivariant under swapping the two marks on the
board and in both mark arguments. -/
theorem minimaxNPF_swap : ∀ (fuel : Nat) (b : Board) (d : Nat) (m : Bool) (ai hu : Player),
    minimaxNPF fuel (swapB b) d m (swapP ai) (swapP hu) = minimaxNPF fuel b d m ai hu := by
  intro fuel
  induction fuel with
  | zero => intro b d m ai hu; rfl
  | succ fuel ih =>
    intro b d m ai hu
    simp only [minimaxNPF]
    rw [getWinner_swapB]
    by_cases hw : getWinner b = some ai
    · rw [if_pos ((map_swapP_eq_some _ _).mpr hw), if_pos hw]
    · rw [if_neg (fun hc => hw ((map_swapP_eq_some _ _).mp hc)), if_neg hw]
      by_cases hw2 : getWinner b = some hu
      · rw [if_pos ((map_swapP_eq_some _ _).mpr hw2), if_pos hw2]
      · rw [if_neg (fun hc => hw2 ((map_swapP_eq_some _ _).mp hc)), if_neg hw2]
        by_cases he : none ∈ b
        · rw [if_neg (not_not_intro ((none_mem_swapB b).mpr he)),
            if_neg (not_not_intro he)]
          cases m with
          | true =>
            rw [if_pos (rfl : (true : Bool) = true), if_pos (rfl : (true : Bool) = true)]
            refine npMaxLoop_congr _ _ ai (swapP ai) b (swapB b)
              (fun i => by rw [getD_swapB]; exact Option.map_eq_none') ?_ (List.range 9) _
            intro i hiem
            rw [← swapB_set]
            exact ih (b.set i (some ai)) (d + 1) false ai hu
          | false =>
            rw [if_neg Bool.false_ne_true, if_neg Bool.false_ne_true]
            refine npMinLoop_congr _ _ hu (swapP hu) b (swapB b)
              (fun i => by rw [getD_swapB]; exact Option.map_eq_none') ?_ (List.range 9) _
            intro i hiem
            rw [← swapB_set]
            exact ih (b.set i (some hu)) (d + 1) true ai hu
        · rw [if_pos (fun hc => he ((none_mem_swapB b).mp hc)), if_pos he]

/-! ## Correspondence between the list board and the record board -/

/-- Record reads agree with list reads on the nine cells. -/
theorem qGet_encQ (b : Board) (i : Nat) (hi : i < 9) :
    qGet (encQ b) i = b.getD i none := by
  interval_cases i <;> rfl

/-- Packing commutes with cell writes on 9-cell boards. -/
theorem encQ_set (b : Board) (hb : b.length = 9) (i : Nat) (hi : i < 9) (x : Cell) :
    encQ (b.set i x) = qSet (encQ b) i x := by
  obtain ⟨c0, c1, c2, c3, c4, c5, c6, c7, c8, rfl⟩ := board_eq_nine b hb
  interval_cases i <;> rfl

/-- The record board has an empty cell iff the 9-cell list board has one. -/
theorem qHasEmpty_encQ (b : Board) (hb : b.length = 9) :
    qHasEmpty (encQ b) = true ↔ none ∈ b := by
  obtain ⟨c0, c1, c2, c3, c4, c5, c6, c7, c8, rfl⟩ := board_eq_nine b hb
  have e : encQ [c0, c1, c2, c3, c4, c5, c6, c7, c8] = ⟨c0, c1, c2, c3, c4, c5, c6, c7, c8⟩ :=
    rfl
  rw [e]
  simp only [qHasEmpty, Bool.or_eq_true, decide_eq_true_eq, List.mem_cons,
    List.not_mem_nil, or_false]
  constructor
  · intro h
    rcases h with ((((((((h | h) | h) | h) | h) | h) | h) | h) | h) <;> simp [h]
  · intro h
    rcases h with h | h | h | h | h | h | h | h | h <;> simp [h.symm]

/-- One step of the winner scan, written with the three cells in hand. -/
theorem gwStep (b : Board) (ia ib ic : Nat) (rest : List (List Nat)) :
    gwLoop b ([ia, ib, ic] :: rest) =
      (match qLine (b.getD ia none) (b.getD ib none) (b.getD ic none) with
       | some mk => some mk
       | none => gwLoop b rest) := by
  show (match b.getD ia none with
        | some mk =>
          if b.getD ib none = some mk ∧ b.getD ic none = some mk then some mk
          else gwLoop b rest
        | none => gwLoop b rest) =
      (match qLine (b.getD ia none) (b.getD ib none) (b.getD ic none) with
       | some mk => some mk
       | none => gwLoop b rest)
  cases hx : b.getD ia none with
  | none => rfl
  | some mx =>
    show (if b.getD ib none = some mx ∧ b.getD ic none = some mx then some mx
          else gwLoop b rest) =
        (match (if b.getD ib none = some mx ∧ b.getD ic none = some mx then some mx
                else none) with
         | some mk => some mk
         | none => gwLoop b rest)
    by_cases h : b.getD ib none = some mx ∧ b.getD ic none = some mx
    · rw [if_pos h, if_pos h]
    · rw [if_neg h, if_neg h]

/-- The record-board winner scan agrees with `getWinner`. -/
theorem qWinner_encQ (b : Board) : qWinner (encQ b) = getWinner b := by
  show qWinner (encQ b) = gwLoop b WIN_PATTERNS
  rw [show WIN_PATTERNS =
    [[0, 1, 2], [3, 4, 5], [6, 7, 8], [0, 3, 6], [1, 4, 7], [2, 5, 8],
     [0, 4, 8], [2, 4, 6]] from rfl]
  rw [gwStep, gwStep, gwStep, gwStep, gwStep, gwStep, gwStep, gwStep]
  dsimp only [qWinner, encQ]
  cases qLine (b.getD 0 none) (b.getD 1 none) (b.getD 2 none) with
  | some mk => rfl
  | none =>
  cases qLine (b.getD 3 none) (b.getD 4 none) (b.getD 5 none) with
  | some mk => rfl
  | none =>
  cases qLine (b.getD 6 none) (b.getD 7 none) (b.getD 8 none) with
  | some mk => rfl
  | none =>
  cases qLine (b.getD 0 none) (b.getD 3 none) (b.getD 6 none) with
  | some mk => rfl
  | none =>
  cases qLine (b.getD 1 none) (b.getD 4 none) (b.getD 7 none) with
  | some mk => rfl
  | none =>
  cases qLine (b.getD 2 none) (b.getD 5 none) (b.getD 8 none) with
  | some mk => rfl
  | none =>
  cases qLine (b.getD 0 none) (b.getD 4 none) (b.getD 8 none) with
  | some mk => rfl
  | none =>
  cases qLine (b.getD 2 none) (b.getD 4 none) (b.getD 6 none) with
  | some mk => rfl
  | none => rfl

/-- Soundness of the lower-bound certificate checker: a `true` verdict on the
packed board means the unpruned value is at least 0 — the human mark cannot
force a win from this position. -/
theorem lbCheck_sound (ai hu : Player) :
    ∀ (fuel : Nat) (b : Board) (d : Nat) (m : Bool),
      b.length = 9 → countEmpty b < fuel → d + countEmpty b ≤ 9 →
      lbCheck ai hu fuel m (encQ b) = true →
      Score.val 0 ≤ minimaxNPF fuel b d m ai hu := by
  intro fuel
  induction fuel with
  | zero => intro b d m _ hf _ _; exact absurd hf (Nat.not_lt_zero _)
  | succ fuel ih =>
    intro b d m hb hf hd hchk
    simp only [lbCheck] at hchk
    rw [qWinner_encQ] at hchk
    cases hw : getWinner b with
    | some w =>
      simp only [hw] at hchk
      have hwa : w = ai := of_decide_eq_true hchk
      subst hwa
      simp only [minimaxNPF]
      rw [if_pos hw]
      exact Score.val_le_val.mpr (by omega)
    | none =>
      simp only [hw] at hchk
      have hwa : ¬ getWinner b = some ai := by rw [hw]; simp
      have hwh : ¬ getWinner b = some hu := by rw [hw]; simp
      simp only [minimaxNPF]
      rw [if_neg hwa, if_neg hwh]
      by_cases he : none ∈ b
      · rw [if_neg (not_not_intro he)]
        have hq : qHasEmpty (encQ b) = true := (qHasEmpty_encQ b hb).mpr he
        rw [hq] at hchk
        rw [if_pos rfl] at hchk
        cases m with
        | true =>
          rw [if_pos rfl] at hchk
          rw [if_pos (rfl : (true : Bool) = true)]
          rcases List.any_eq_true.mp hchk with ⟨i, _, hpred⟩
          rw [Bool.and_eq_true, Bool.and_eq_true] at hpred
          rcases hpred with ⟨⟨hi9b, hqib⟩, hrec⟩
          have hi9 : i < 9 := of_decide_eq_true hi9b
          have hbi : b.getD i none = none := by
            rw [← qGet_encQ b i hi9]
            exact of_decide_eq_true hqib
          rw [← encQ_set b hb i hi9 (some ai)] at hrec
          have hil : i < b.length := by omega
          have hcs := countEmpty_set ai b i hbi hil
          have hch := ih (b.set i (some ai)) (d + 1) false
            (by rw [List.length_set, hb]) (by omega) (by omega) hrec
          exact le_trans hch
            (child_le_npMaxLoop (fun b1 => minimaxNPF fuel b1 (d + 1) false ai hu) ai
              (List.range 9) b Score.negInf i (List.mem_range.mpr hi9) hbi)
        | false =>
          rw [if_neg Bool.false_ne_true] at hchk
          rw [if_neg Bool.false_ne_true]
          have hall := List.all_eq_true.mp hchk
          refine le_npMinLoop_of_all _ hu _ (List.range 9) b Score.posInf
            (Score.le_posInf _) ?_
          intro i hi hbi
          have hi9 : i < 9 := List.mem_range.mp hi
          have hqi : qGet (encQ b) i = none := by rw [qGet_encQ b i hi9]; exact hbi
          have hstep := hall i hi
          rw [if_pos hqi] at hstep
          rw [← encQ_set b hb i hi9 (some hu)] at hstep
          have hil : i < b.length := by omega
          have hcs := countEmpty_set hu b i hbi hil
          exact ih (b.set i (some hu)) (d + 1) true
            (by rw [List.length_set, hb]) (by omega) (by omega) hstep
      · rw [if_pos he]

/-- On a 9-cell board with an empty cell, `hardMove` picks an empty cell of
maximal full-window probe score. -/
theorem hardMove_some (b : Board) (ai hu : Player) (hb : b.length = 9) (he : none ∈ b) :
    ∃ i ∈ getEmptyCells b, (hardMove b ai hu).1 = some i ∧
      ∀ j ∈ getEmptyCells b,
        (minimax (b.set j (some ai)) 0 false Score.negInf Score.posInf ai hu).1 ≤
        (minimax (b.set i (some ai)) 0 false Score.negInf Score.posInf ai hu).1 := by
  have hemp : ∀ i ∈ getEmptyCells b, b.getD i none = none :=
    fun i hi => (mem_getEmptyCells.1 hi).2
  have hpw : (getEmptyCells b).Pairwise (· < ·) :=
    (List.pairwise_lt_range b.length).filter _
  rcases hmLoop_spec ai hu (getEmptyCells b) b Score.negInf none hemp hpw with
    ⟨hall, _⟩ | ⟨i, hi, hR, _, hmax, _⟩
  · obtain ⟨i0, hi0l, hbi0⟩ := exists_empty_index he
    have hi0 : i0 ∈ getEmptyCells b := mem_getEmptyCells.2 ⟨hi0l, hbi0⟩
    have hc9 : countEmpty (b.set i0 (some ai)) ≤ 9 := by
      have h1 := countEmpty_le_length (b.set i0 (some ai))
      rwa [List.length_set, hb] at h1
    obtain ⟨z, hz, _, _⟩ := minimaxNPF_bounds (countEmpty (b.set i0 (some ai)) + 1)
      (b.set i0 (some ai)) 0 false ai hu (by rw [List.length_set, hb])
      (Nat.lt_succ_self _) (by omega)
    have hz' : (minimax (b.set i0 (some ai)) 0 false Score.negInf Score.posInf ai hu).1
        = Score.val z := by
      rw [minimax_eq_NP]
      exact hz
    have hle := hall i0 hi0
    rw [hz'] at hle
    exact absurd (le_antisymm hle (Score.negInf_le _)) (fun h => Score.noConfusion h)
  · exact ⟨i, hi, hR, hmax⟩

open Player in
set_option maxRecDepth 10000 in
/-- Kernel-checked certificate: with X as the AI moving first from the empty
board, the human mark O cannot force a win. -/
theorem lb_root_max : lbCheck X O 10 true (encQ emptyBoard) = true := by decide!

open Player in
set_option maxRecDepth 10000 in
/-- Kernel-checked certificate: with X as the AI moving second from the empty
board, the human mark O cannot force a win. -/
theorem lb_root_min : lbCheck X O 10 false (encQ emptyBoard) = true := by decide!

/-- Safety induction: if the unpruned value of the current position for the
side configuration `(ai, hu)` is at least 0, the adversarial simulation
against the hard strategy never reaches a human win.  On AI turns the
argmax move of `hardMove` keeps the value at least 0 (some child does, and
the chosen child scores no worse); on human turns every legal reply has
value at least the fold, hence at least 0. -/
theorem noHumanWin_of_NP (ai hu : Player) (hne : ai ≠ hu) :
    ∀ (fuel : Nat) (b : Board) (m : Bool),
      b.length = 9 → countEmpty b < fuel →
      Score.val 0 ≤ minimaxNPF (countEmpty b + 1) b 0 m ai hu →
      noHumanWin fuel m b ai hu = true := by
  intro fuel
  induction fuel with
  | zero => intro b m _ hf _; exact absurd hf (Nat.not_lt_zero _)
  | succ fuel ih =>
    intro b m hb hf hv
    simp only [noHumanWin]
    by_cases hwh : getWinner b = some hu
    · exfalso
      have hva : minimaxNPF (countEmpty b + 1) b 0 m ai hu = Score.val (((0 : Nat) : ℤ) - 10) := by
        simp only [minimaxNPF]
        rw [if_neg (fun hc => hne (Option.some.inj (hwh ▸ hc)).symm), if_pos hwh]
      rw [hva] at hv
      exact absurd (Score.val_le_val.mp hv) (by omega)
    · rw [if_neg hwh]
      by_cases hwa : getWinner b = some ai
      · rw [if_pos hwa]
      · rw [if_neg hwa]
        by_cases hful : none ∈ b
        · rw [if_neg (not_not_intro hful)]
          obtain ⟨ie, hiel, hbie⟩ := exists_empty_index hful
          have hk1 : 0 < countEmpty b :=
            List.length_pos_of_mem (mem_getEmptyCells.2 ⟨hiel, hbie⟩)
          have hk9 : countEmpty b ≤ 9 := by
            have := countEmpty_le_length b
            omega
          simp only [minimaxNPF] at hv
          rw [if_neg hwa, if_neg hwh, if_neg (not_not_intro hful)] at hv
          cases m with
          | true =>
            rw [if_pos (rfl : (true : Bool) = true)]
            rw [if_pos (rfl : (true : Bool) = true)] at hv
            rcases npMaxLoop_mem
                (fun b1 => minimaxNPF (countEmpty b) b1 (0 + 1) false ai hu) ai
                (List.range 9) b Score.negInf with hR | ⟨i0, hi0r, hi0em, hR⟩
            · rw [hR] at hv
              exact absurd (le_antisymm hv (Score.negInf_le _))
                (fun hc => Score.noConfusion hc)
            · rw [hR] at hv
              have hi0l : i0 < b.length := by
                have := List.mem_range.mp hi0r
                omega
              have hcs0 := countEmpty_set ai b i0 hi0em hi0l
              have ht := (minimaxNPF_nonneg_depth (countEmpty b) (b.set i0 (some ai))
                (0 + 1) 0 false ai hu (by rw [List.length_set, hb]) (by omega)
                (by omega) (by omega)).mp hv
              have hsc0 : Score.val 0 ≤
                  (minimax (b.set i0 (some ai)) 0 false Score.negInf Score.posInf ai hu).1 := by
                rw [minimax_eq_NP]
                show Score.val 0 ≤ minimaxNPF (countEmpty (b.set i0 (some ai)) + 1)
                  (b.set i0 (some ai)) 0 false ai hu
                rw [hcs0]
                exact ht
              obtain ⟨istar, histar, hRmove, hmax⟩ := hardMove_some b ai hu hb hful
              have hi0ge : i0 ∈ getEmptyCells b :=
                mem_getEmptyCells.2 ⟨hi0l, hi0em⟩
              have hscs : Score.val 0 ≤
                  (minimax (b.set istar (some ai)) 0 false Score.negInf Score.posInf ai hu).1 :=
                le_trans hsc0 (hmax i0 hi0ge)
              rw [show chooseMove b Difficulty.hard ai hu 0 = (hardMove b ai hu).1 from rfl,
                hRmove]
              have hbistar : b.getD istar none = none := (mem_getEmptyCells.1 histar).2
              dsimp only
              rw [if_pos hbistar]
              have histarl : istar < b.length := (mem_getEmptyCells.1 histar).1
              have hcss := countEmpty_set ai b istar hbistar histarl
              rw [minimax_eq_NP] at hscs
              exact ih (b.set istar (some ai)) false (by rw [List.length_set, hb])
                (by omega) hscs
          | false =>
            rw [if_neg Bool.false_ne_true]
            rw [if_neg Bool.false_ne_true] at hv
            rw [List.all_eq_true]
            intro i hi
            rcases List.mem_filter.mp hi with ⟨hir, hbidec⟩
            have hbi : b.getD i none = none := of_decide_eq_true hbidec
            have hil : i < b.length := by
              have := List.mem_range.mp hir
              omega
            have hcs := countEmpty_set hu b i hbi hil
            have hchild := le_trans hv
              (npMinLoop_le_child (fun b1 => minimaxNPF (countEmpty b) b1 (0 + 1) true ai hu)
                hu (List.range 9) b Score.posInf i hir hbi)
            have ht := (minimaxNPF_nonneg_depth (countEmpty b) (b.set i (some hu))
              (0 + 1) 0 true ai hu (by rw [List.length_set, hb]) (by omega)
              (by omega) (by omega)).mp hchild
            refine ih (b.set i (some hu)) true (by rw [List.length_set, hb]) (by omega) ?_
            rw [show countEmpty (b.set i (some hu)) + 1 = countEmpty b from hcs]
            exact ht
        · rw [if_pos hful]

open Player in
/-- C1: unbeatability of the hard strategy.  Starting from the empty board,
with either mark playing the AI role and either side moving first, letting
the AI play the index returned by `chooseMove` at difficulty hard, the
adversarial simulation over every possible sequence of legal human moves
(`noHumanWin`, which fails on any reachable human-win terminal state and on
any illegal or absent AI move) certifies that the game never reaches a state
where the human mark has a completed line: the outcome is always an AI win
or a draw. -/
theorem hard_ai_never_loses :
    noHumanWin 10 true emptyBoard X O = true ∧
    noHumanWin 10 false emptyBoard X O = true ∧
    noHumanWin 10 true emptyBoard O X = true ∧
    noHumanWin 10 false emptyBoard O X = true := by
  have hXO : ∀ m, Score.val 0 ≤ minimaxNPF 10 emptyBoard 0 m X O := by
    intro m
    cases m with
    | true =>
      exact lbCheck_sound X O 10 emptyBoard 0 true rfl (by decide) (by decide) lb_root_max
    | false =>
      exact lbCheck_sound X O 10 emptyBoard 0 false rfl (by decide) (by decide) lb_root_min
  have hOX : ∀ m, Score.val 0 ≤ minimaxNPF 10 emptyBoard 0 m O X := by
    intro m
    have hs : minimaxNPF 10 emptyBoard 0 m O X = minimaxNPF 10 emptyBoard 0 m X O :=
      minimaxNPF_swap 10 emptyBoard 0 m X O
    rw [hs]
    exact hXO m
  exact ⟨noHumanWin_of_NP X O (by decide) 10 emptyBoard true rfl (by decide) (hXO true),
    noHumanWin_of_NP X O (by decide) 10 emptyBoard false rfl (by decide) (hXO false),
    noHumanWin_of_NP O X (by decide) 10 emptyBoard true rfl (by decide) (hOX true),
    noHumanWin_of_NP O X (by decide) 10 emptyBoard false rfl (by decide) (hOX false)⟩
